import Mathlib

/-!
Verification development for the `time-away` workforce-scheduling core.

The Python source (`src/server/src/search/_search.py` together with the domain
types in `src/server/src/__init__.py`, and the horizon variant in
`src/src/search/_search.py`) is embedded shallowly:

* Python `str` identifiers (person ids, task ids, names, skills) are modelled
  as natural numbers; only their decidable total order and equality are used
  by the code, so this preserves every comparison the source performs.
* `datetime.date` values are modelled as integer day numbers and epoch
  timestamps as integer seconds; `timedelta(days=k)` is integer subtraction,
  and day windows are inclusive integer ranges, exactly as in the source.
* Python dicts are modelled either as association lists in insertion order
  (when the source iterates over them) or as total functions with a default
  (when the source only ever calls `.get(k, default)`).
* Python `list.sort` / `sorted` (a stable sort) is modelled by
  `List.insertionSort` with a non-strict total preorder, which places an
  element being inserted before all equal-key elements that were inserted
  earlier; since insertion proceeds from the tail of the list, this
  reproduces stable sorting exactly.
* The backtracking recursion of `DaySolver.solve` is modelled with an
  explicit fuel parameter; the source recursion strictly decreases the total
  outstanding deficit at every recursive call, and the entry point passes
  one unit of fuel more than the total initial deficit, which is sufficient.
-/

namespace TimeAway

/-- `Person` from `src/server/src/__init__.py`: frozen dataclass with
`person_id`, `name` and a set of `skills`. -/
structure Person where
  person_id : ℕ
  name : ℕ
  skills : Finset ℕ
deriving DecidableEq

/-- `Task` from `src/server/src/__init__.py`: frozen dataclass with
`task_id`, `name`, epoch bounds and the per-day requirement dict
(association list in dict insertion order). -/
structure Task where
  task_id : ℕ
  name : ℕ
  start_epoch : ℤ
  end_epoch : ℤ
  daily_requirements : List (ℕ × ℤ)
deriving DecidableEq, Inhabited

/-- `Assignment` from `src/server/src/__init__.py`. -/
structure Assignment where
  day : ℤ
  person_id : ℕ
  task_id : ℕ
  skills_contributed : List ℕ
deriving DecidableEq

/-! ## Calendar utilities (`src/server/src/__init__.py`) -/

/-- `epoch_to_date(ts, tz_offset_hours)`:
`(datetime.utcfromtimestamp(ts) + timedelta(hours=tz_offset_hours)).date()`,
i.e. the floor of `(ts + 3600*tz) / 86400` in days. -/
def epoch_to_date (ts : ℤ) (tz_offset_hours : ℤ) : ℤ :=
  (ts + tz_offset_hours * 3600).fdiv 86400

/-- The epoch second at which local day `d` starts, for a timezone that is
`tz` hours ahead of UTC: the instant `ts` lies on local day `d` iff
`dayStartEpoch d tz ≤ ts < dayStartEpoch (d+1) tz`. -/
def dayStartEpoch (d : ℤ) (tz : ℤ) : ℤ := d * 86400 - tz * 3600

/-- `is_task_active_on_day` (`src/server/src/search/_search.py`, lines 13-16):
`epoch_to_date(start) <= day <= epoch_to_date(end)`. -/
def is_task_active_on_day (t : Task) (day : ℤ) (tz_offset_hours : ℤ) : Bool :=
  decide (epoch_to_date t.start_epoch tz_offset_hours ≤ day ∧
    day ≤ epoch_to_date t.end_epoch tz_offset_hours)

/-- The activity rule as the specification words it (spec §4.2): the task is
active on day `D` iff `start_ts < end_of_day(D) ∧ end_ts > start_of_day(D)`.
Stated from the spec for comparison with `is_task_active_on_day`. -/
def spec_active_halfopen (t : Task) (day : ℤ) (tz : ℤ) : Bool :=
  decide (t.start_epoch < dayStartEpoch (day + 1) tz ∧
    dayStartEpoch day tz < t.end_epoch)

/-! ## PlanStore (`src/server/src/search/_search.py`, lines 18-54)

The `_days_by_person` dict is an association list `person_id ↦ set of days`
in insertion order; keys are unique by construction (`setdefault`). -/

/-- The `_days_by_person` mapping of a `PlanStore`. -/
abbrev PlanStore := List (ℕ × Finset ℤ)

/-- `self._days_by_person.get(person_id, set())`. -/
def storeDays : PlanStore → ℕ → Finset ℤ
  | [], _ => ∅
  | e :: rest, pid => if e.1 = pid then e.2 else storeDays rest pid

/-- `PlanStore.assigned_on`. -/
def assigned_on (st : PlanStore) (pid : ℕ) (day : ℤ) : Bool :=
  decide (day ∈ storeDays st pid)

/-- `PlanStore.count_in_window`: committed days of `pid` in the inclusive
range `[start_day, end_day]`. -/
def count_in_window (st : PlanStore) (pid : ℕ) (start_day end_day : ℤ) : ℕ :=
  ((storeDays st pid).filter (fun d => start_day ≤ d ∧ d ≤ end_day)).card

/-- `PlanStore.can_assign` (lines 45-50). -/
def can_assign (st : PlanStore) (pid : ℕ) (day : ℤ) (pending_same_day : Bool) : Bool :=
  let used := count_in_window st pid (day - 6) day
  let used := if pending_same_day && !(assigned_on st pid day) then used + 1 else used
  decide (used ≤ if pending_same_day then 5 else 4)

/-- `self._days_by_person.setdefault(pid, set()).add(day)`: update the entry
for `pid` in place, or append a fresh entry at the end of the dict. -/
def storeAdd : PlanStore → ℕ → ℤ → PlanStore
  | [], pid, day => [(pid, {day})]
  | e :: rest, pid, day =>
    if e.1 = pid then (e.1, insert day e.2) :: rest else e :: storeAdd rest pid day

/-- `PlanStore.commit`. -/
def commit (st : PlanStore) (assignments : List Assignment) : PlanStore :=
  assignments.foldl (fun s a => storeAdd s a.person_id a.day) st

/-- `PlanStore.preload` (same loop as `commit`). -/
def preload (st : PlanStore) (assignments : List Assignment) : PlanStore :=
  commit st assignments

/-- `PlanStore.to_json` modelled at the payload level: the serialized form is
the dict mapping each person to the sorted list of their committed days
(`sorted([d.isoformat() for d in days])`; ISO date strings sort exactly like
the dates themselves).  The `json.dumps` text encoding is the Python standard
library and is not re-modelled. -/
def to_json (st : PlanStore) : List (ℕ × List ℤ) :=
  st.map (fun e => (e.1, e.2.sort (· ≤ ·)))

/-- `PlanStore.from_json` at the payload level: rebuild
`{p: {date.fromisoformat(ds) for ds in day_list}}`. -/
def from_json (payload : List (ℕ × List ℤ)) : PlanStore :=
  payload.map (fun e => (e.1, e.2.toFinset))

/-! ## DaySolver (`src/server/src/search/_search.py`, lines 70-184) -/

/-- Sort key order used by `sorted(people, key=lambda p: (p.name, p.person_id))`. -/
def personLE (a b : Person) : Prop :=
  a.name < b.name ∨ (a.name = b.name ∧ a.person_id ≤ b.person_id)

instance : DecidableRel personLE := fun a b => by unfold personLE; infer_instance

instance : IsTotal Person personLE := by
  constructor
  intro a b
  unfold personLE
  omega

instance : IsTrans Person personLE := by
  constructor
  intro a b c hab hbc
  unfold personLE at *
  omega

/-- Sort key order used by `sorted(tasks, key=lambda t: (t.name, t.task_id))`. -/
def taskLE (a b : Task) : Prop :=
  a.name < b.name ∨ (a.name = b.name ∧ a.task_id ≤ b.task_id)

instance : DecidableRel taskLE := fun a b => by unfold taskLE; infer_instance

instance : IsTotal Task taskLE := by
  constructor
  intro a b
  unfold taskLE
  omega

instance : IsTrans Task taskLE := by
  constructor
  intro a b c hab hbc
  unfold taskLE at *
  omega

/-- Per-task deficit dict of `DaySolver`: `task_id ↦ (skill ↦ count)`, both
levels in dict insertion order. -/
abbrev Deficits := List (ℕ × List (ℕ × ℤ))

/-- `d.get(s, 0)` on a skill-count dict. -/
def skillCount (l : List (ℕ × ℤ)) (s : ℕ) : ℤ :=
  match l.find? (fun e => e.1 == s) with
  | some e => e.2
  | none => 0

/-- `d[s] -= 1` on a skill-count dict. -/
def decSkill (l : List (ℕ × ℤ)) (s : ℕ) : List (ℕ × ℤ) :=
  l.map (fun e => if e.1 = s then (e.1, e.2 - 1) else e)

/-- Python dict insert (`d[k] = v`): overwrite the existing entry or append a
new one at the end. -/
def dictInsert (ds : Deficits) (k : ℕ) (v : List (ℕ × ℤ)) : Deficits :=
  if ds.any (fun e => e.1 == k) then ds.map (fun e => if e.1 = k then (k, v) else e)
  else ds ++ [(k, v)]

/-- `deficits[tid]`, defaulting to the empty dict. -/
def defLookup (ds : Deficits) (tid : ℕ) : List (ℕ × ℤ) :=
  match ds.find? (fun e => e.1 == tid) with
  | some e => e.2
  | none => []

/-- `{t.task_id: {s: c for s, c in t.daily_requirements.items() if c > 0} for t in tasks}`
(a dict comprehension: later duplicate keys overwrite earlier ones). -/
def initDeficits (tasks : List Task) : Deficits :=
  tasks.foldl (fun ds t => dictInsert ds t.task_id (t.daily_requirements.filter (fun e => 0 < e.2))) []

/-- Pointwise update of the deficit dict at one task key. -/
def defUpdate (ds : Deficits) (tid : ℕ) (f : List (ℕ × ℤ) → List (ℕ × ℤ)) : Deficits :=
  ds.map (fun e => if e.1 = tid then (e.1, f e.2) else e)

/-- `task_by_id` / `person_by_id` are dict comprehensions, so a duplicated id
resolves to the *last* occurrence. -/
def taskById (tasks : List Task) (tid : ℕ) : Task :=
  (tasks.reverse.find? (fun t => t.task_id == tid)).getD default

def personById (people : List Person) (pid : ℕ) : Person :=
  (people.reverse.find? (fun p => p.person_id == pid)).getD ⟨0, 0, ∅⟩

/-- The read-only context of one `DaySolver` run: the day, the people and
tasks already sorted by the constructor, the store view and the PTO id set
for this day (`self.pto_ids_by_day.get(self.day, set())`). -/
structure DayCtx where
  day : ℤ
  people : List Person
  tasks : List Task
  store : PlanStore
  pto : Finset ℕ

/-- `DaySolver._is_pto`. -/
def isPto (ctx : DayCtx) (pid : ℕ) : Bool := decide (pid ∈ ctx.pto)

/-- `DaySolver._all_satisfied`. -/
def allSatisfied (ds : Deficits) : Bool :=
  ds.all (fun e => e.2.all (fun p => p.2 ≤ 0))

/-- One comparison step of `_select_next_need`: the running best is
`(task_id, skill, task name, count)`; a candidate entry replaces it when its
count is strictly larger, or equal with a lexicographically smaller
`(task name, skill)` key. -/
def needStep (t : Task) (best : Option (ℕ × ℕ × ℕ × ℤ)) (e : ℕ × ℤ) :
    Option (ℕ × ℕ × ℕ × ℤ) :=
  if 0 < e.2 then
    match best with
    | none => some (t.task_id, e.1, t.name, e.2)
    | some b =>
      if b.2.2.2 < e.2 ∨ (e.2 = b.2.2.2 ∧
          (t.name < b.2.2.1 ∨ (t.name = b.2.2.1 ∧ e.1 < b.2.1))) then
        some (t.task_id, e.1, t.name, e.2)
      else some b
  else best

/-- `DaySolver._select_next_need` (lines 99-110): scan tasks in sorted order
and each task's positive deficits in dict order. -/
def selectNextNeed (tasks : List Task) (ds : Deficits) : Option (ℕ × ℕ) :=
  (tasks.foldl (fun best t => (defLookup ds t.task_id).foldl (needStep t) best) none).map
    (fun b => (b.1, b.2.1))

/-- `multi_cover` of `_candidates_for`:
`sum(1 for s in t.daily_requirements.keys() if s in p.skills and deficits[task_id].get(s, 0) > 0)`. -/
def multiCover (t : Task) (defl : List (ℕ × ℤ)) (p : Person) : ℕ :=
  t.daily_requirements.countP (fun e => decide (e.1 ∈ p.skills) && decide (0 < skillCount defl e.1))

/-- The eligibility filter of `_candidates_for` (lines 115-125). -/
def eligible (ctx : DayCtx) (assigned : List (ℕ × ℕ)) (t : Task) (skill : ℕ) (p : Person) : Bool :=
  !(isPto ctx p.person_id) &&
  !(assigned.any (fun e => e.1 == p.person_id)) &&
  decide (skill ∈ p.skills) &&
  (t.daily_requirements.any (fun e => decide (e.1 ∈ p.skills))) &&
  can_assign ctx.store p.person_id ctx.day false

/-- The ranking order of `can_cover.sort(key=lambda x: (-x[1], x[2], x[0].name))`:
multi-cover descending, recent-usage ascending, name ascending. -/
def candLE (a b : Person × ℕ × ℕ) : Prop :=
  b.2.1 < a.2.1 ∨ (a.2.1 = b.2.1 ∧
    (a.2.2 < b.2.2 ∨ (a.2.2 = b.2.2 ∧ a.1.name ≤ b.1.name)))

instance : DecidableRel candLE := fun a b => by unfold candLE; infer_instance

instance : IsTotal (Person × ℕ × ℕ) candLE := by
  constructor
  intro a b
  unfold candLE
  omega

instance : IsTrans (Person × ℕ × ℕ) candLE := by
  constructor
  intro a b c hab hbc
  unfold candLE at *
  omega

/-- `DaySolver._candidates_for` (lines 112-131). -/
def candidatesFor (ctx : DayCtx) (ds : Deficits) (assigned : List (ℕ × ℕ))
    (task_id : ℕ) (required_skill : ℕ) : List Person :=
  let t := taskById ctx.tasks task_id
  let canCover := (ctx.people.filter (eligible ctx assigned t required_skill)).map
    (fun p => (p, multiCover t (defLookup ds task_id) p,
      count_in_window ctx.store p.person_id (ctx.day - 6) (ctx.day - 1)))
  (canCover.insertionSort candLE).map (fun x => x.1)

/-- `DaySolver._assign_person_to_task` (lines 133-140) restricted to its
effect on the deficit dict of task `t`: walk the requirement keys in dict
order and decrement each one the person covers while it is still positive. -/
def applyAssignTask (reqs : List (ℕ × ℤ)) (defl : List (ℕ × ℤ)) (skills : Finset ℕ) :
    List (ℕ × ℤ) :=
  reqs.foldl
    (fun dl e => if e.1 ∈ skills ∧ 0 < skillCount dl e.1 then decSkill dl e.1 else dl)
    defl

/-- The first candidate (in order) for which the tentative assignment passes
the `pending_same_day=True` re-check and the recursive search succeeds; a
candidate that fails is undone, which in this functional embedding simply
means its updated state is discarded. -/
def firstSome {α β : Type} (f : α → Option β) : List α → Option β
  | [] => none
  | a :: l =>
    match f a with
    | some b => some b
    | none => firstSome f l

/-- The recursive `backtrack` closure of `DaySolver.solve` (lines 151-167).
The result is the final `assigned_today` dict (as an insertion-ordered list
of `(person_id, task_id)` pairs) on success. -/
def backtrack (ctx : DayCtx) : ℕ → Deficits → List (ℕ × ℕ) → Option (List (ℕ × ℕ))
  | 0, _, _ => none
  | fuel + 1, ds, assigned =>
    if allSatisfied ds then some assigned
    else
      match selectNextNeed ctx.tasks ds with
      | none => some assigned
      | some (task_id, skill) =>
        let t := taskById ctx.tasks task_id
        firstSome
          (fun p =>
            if can_assign ctx.store p.person_id ctx.day true then
              backtrack ctx fuel
                (defUpdate ds t.task_id (fun dl => applyAssignTask t.daily_requirements dl p.skills))
                (assigned ++ [(p.person_id, t.task_id)])
            else none)
          (candidatesFor ctx ds assigned task_id skill)

/-- Total outstanding deficit: every recursive call of `backtrack` strictly
decreases it, so `totalDeficit + 1` units of fuel reproduce the unbounded
Python recursion. -/
def totalDeficit (ds : Deficits) : ℕ :=
  (ds.map (fun e => (e.2.map (fun p => p.2.toNat)).sum)).sum

/-- The final sort of `solve`:
`sorted(assigned_today.items(), key=lambda kv: person_by_id[kv[0]].name)`
(a stable sort on the person name only). -/
def outLE (people : List Person) (a b : ℕ × ℕ) : Prop :=
  (personById people a.1).name ≤ (personById people b.1).name

instance {people : List Person} : DecidableRel (outLE people) := fun a b => by
  unfold outLE; infer_instance

/-- Construction of one output `Assignment` (lines 172-176). -/
def mkAssignment (ctx : DayCtx) (e : ℕ × ℕ) : Assignment :=
  let p := personById ctx.people e.1
  let t := taskById ctx.tasks e.2
  { day := ctx.day, person_id := e.1, task_id := e.2,
    skills_contributed :=
      (((t.daily_requirements.map (fun r => r.1)).filter (fun s => decide (s ∈ p.skills))).insertionSort (· ≤ ·)) }

/-- The failure report of `solve` (lines 179-183): the positive residual
deficits keyed by task *name*; after a failed search every tentative change
has been undone, so this reads the initial deficit dict. -/
def remainingDeficits (tasks : List Task) (ds : Deficits) : List (ℕ × List (ℕ × ℤ)) :=
  (ds.filter (fun e => e.2.any (fun p => decide (0 < p.2)))).map
    (fun e => ((taskById tasks e.1).name, e.2.filter (fun p => decide (0 < p.2))))

/-- `DaySolver.__init__` followed by `DaySolver.solve`: returns
`(feasible, assignments, remaining_deficits)`.  `ptoForDay` is the
normalized PTO id set for the solved day. -/
def solveDay (day : ℤ) (people : List Person) (tasks : List Task)
    (store : PlanStore) (ptoForDay : Finset ℕ) :
    Bool × List Assignment × List (ℕ × List (ℕ × ℤ)) :=
  let ctx : DayCtx :=
    { day := day
      people := people.insertionSort personLE
      tasks := tasks.insertionSort taskLE
      store := store
      pto := ptoForDay }
  let ds0 := initDeficits ctx.tasks
  if allSatisfied ds0 then (true, [], [])
  else
    match backtrack ctx (totalDeficit ds0 + 1) ds0 [] with
    | some assigned =>
      (true, ((assigned.insertionSort (outLE ctx.people)).map (mkAssignment ctx)), [])
    | none => (false, [], remainingDeficits ctx.tasks ds0)

/-! ## WeeklyScheduler (`src/server/src/search/_search.py`, lines 186-217) -/

/-- A normalized PTO map (`normalize_pto_map` output): day ↦ set of person
ids absent that day. -/
abbrev PtoMap := ℤ → Finset ℕ

/-- Accumulated state of the `schedule_week` loop. -/
structure WeekState where
  store : PlanStore
  assignments : List Assignment
  unsatisfied : List (ℤ × List (ℕ × List (ℕ × ℤ)))

/-- One iteration of the `schedule_week` day loop (lines 201-215). -/
def weekStep (people : List Person) (tasks : List Task) (now_epoch : ℤ)
    (pto : PtoMap) (tz : ℤ) (st : WeekState) (d : ℤ) : WeekState :=
  let active := tasks.filter (fun t => is_task_active_on_day t d tz && decide (now_epoch ≤ t.end_epoch))
  if active.isEmpty then st
  else
    let r := solveDay d people active st.store (pto d)
    if r.1 then
      { store := commit st.store r.2.1
        assignments := st.assignments ++ r.2.1
        unsatisfied := st.unsatisfied }
    else
      { st with unsatisfied := st.unsatisfied ++ [(d, r.2.2)] }

/-- `WeeklyScheduler.schedule_week`: iterate the seven days
`week_start_day .. week_start_day + 6` in order, committing each feasible
day into the store.  Returns the final store together with the Python
return value `(all_assignments, unsatisfied)`. -/
def schedule_week (people : List Person) (tasks : List Task) (store : PlanStore)
    (week_start_day : ℤ) (now_epoch : ℤ) (pto : PtoMap) (tz : ℤ) : WeekState :=
  ((List.range 7).map (fun i : ℕ => week_start_day + (i : ℤ))).foldl
    (weekStep people tasks now_epoch pto tz)
    { store := store, assignments := [], unsatisfied := [] }

/-! ## HorizonScheduler (`src/src/search/_search.py`)

The horizon variant has its own `Person` and `Task` dataclasses and keeps a
six-entry deque of 0/1 work bits per person.  Rarity scores (`c / sup` in
Python float arithmetic) are modelled as exact rationals; they only choose
one of several task orderings that are all attempted anyway. -/

/-- `Person` of the horizon module. -/
structure HPerson where
  person_id : ℕ
  skills : Finset ℕ
  preworked_in_last_7 : ℤ
deriving DecidableEq

/-- `Task` of the horizon module. -/
structure HTask where
  task_id : ℕ
  required_skills : List (ℕ × ℤ)
  start_ts : ℤ
  end_ts : ℤ
deriving DecidableEq

/-- `Task.is_active_on_day` (`src/src/search/_search.py`, lines 24-25):
`(self.start_ts < day_end_ts) and (self.end_ts > day_start_ts)`. -/
def HTask.is_active_on_day (t : HTask) (day_start_ts day_end_ts : ℤ) : Bool :=
  decide (t.start_ts < day_end_ts ∧ day_start_ts < t.end_ts)

/-- `deque(..., maxlen=6).append(bit)`: push right, drop from the left once
the queue holds more than six entries. -/
def dequeAppend (q : List ℤ) (b : ℤ) : List ℤ :=
  (q ++ [b]).drop ((q ++ [b]).length - 6)

/-- The initial six-bit history of one person (constructor lines 77-86):
`min(5, max(0, preworked))` trailing ones. -/
def initHistory (preworked : ℤ) : List ℤ :=
  List.replicate (6 - (min 5 (max 0 preworked)).toNat) 0 ++
    List.replicate (min 5 (max 0 preworked)).toNat 1

/-- `AssignmentPerTaskPerDay`. -/
structure APT where
  task_id : ℕ
  skill_coverage : List (ℕ × List ℕ)
  people_contributions : List (ℕ × List ℕ)
deriving DecidableEq

/-- `DaySchedule` of the horizon module (the ISO date string is modelled by
the integer day number). -/
structure HDaySchedule where
  date : ℤ
  assignments : List APT
deriving DecidableEq

/-- The mutable state of a `HorizonScheduler` run: per-person histories and
the violation log (each violation records the day it names). -/
structure HState where
  histories : ℕ → List ℤ
  violations : List ℤ

/-- The read-only inputs, with `people`/`tasks` already sorted by id as in
the constructor. -/
structure HCtx where
  people : List HPerson
  tasks : List HTask

/-- Sorting order of `_active_tasks_for_day`:
`key=lambda t: (-sum(t.required_skills.values()), t.end_ts, t.task_id)`. -/
def activeLE (a b : HTask) : Prop :=
  ((b.required_skills.map (fun e => e.2)).sum < (a.required_skills.map (fun e => e.2)).sum) ∨
  ((a.required_skills.map (fun e => e.2)).sum = (b.required_skills.map (fun e => e.2)).sum ∧
    (a.end_ts < b.end_ts ∨ (a.end_ts = b.end_ts ∧ a.task_id ≤ b.task_id)))

instance : DecidableRel activeLE := fun a b => by unfold activeLE; infer_instance

/-- `HorizonScheduler._active_tasks_for_day`. -/
def activeTasksForDay (ctx : HCtx) (day_start_ts day_end_ts : ℤ) : List HTask :=
  (ctx.tasks.filter (fun t => t.is_active_on_day day_start_ts day_end_ts)).insertionSort activeLE

/-- `HorizonScheduler._rarity_score` for one task, with exact rational
division in place of Python float division. -/
def rarityScore (ctx : HCtx) (t : HTask) : ℚ :=
  (t.required_skills.map
    (fun e => (e.2 : ℚ) / (max 1 ((ctx.people.countP (fun p => decide (e.1 ∈ p.skills))) : ℤ) : ℤ))).sum

/-- Ordering of the rarity-preferred pass:
`key=lambda t: (-rarity[t], t.end_ts, t.task_id)`. -/
def rarityLE (ctx : HCtx) (a b : HTask) : Prop :=
  (rarityScore ctx b < rarityScore ctx a) ∨ (rarityScore ctx a = rarityScore ctx b ∧
    (a.end_ts < b.end_ts ∨ (a.end_ts = b.end_ts ∧ a.task_id ≤ b.task_id)))

instance {ctx : HCtx} : DecidableRel (rarityLE ctx) := fun a b => by unfold rarityLE; infer_instance

/-- Ordering of the earliest-end-first pass:
`key=lambda t: (t.end_ts, -sum(t.required_skills.values()), t.task_id)`. -/
def eefLE (a b : HTask) : Prop :=
  a.end_ts < b.end_ts ∨ (a.end_ts = b.end_ts ∧
    (((b.required_skills.map (fun e => e.2)).sum < (a.required_skills.map (fun e => e.2)).sum) ∨
      ((a.required_skills.map (fun e => e.2)).sum = (b.required_skills.map (fun e => e.2)).sum ∧
        a.task_id ≤ b.task_id)))

instance : DecidableRel eefLE := fun a b => by unfold eefLE; infer_instance

/-- All ways of picking one element out of a list, each paired with the
remaining elements in their original order. -/
def selections {α : Type} : List α → List (α × List α)
  | [] => []
  | a :: l => (a, l) :: (selections l).map (fun p => (p.1, a :: p.2))

/-- `itertools.permutations` in its enumeration order, driven by a fuel equal
to the list length. -/
def pyPermsF {α : Type} : ℕ → List α → List (List α)
  | 0, _ => [[]]
  | n + 1, l => (selections l).flatMap (fun p => (pyPermsF n p.2).map (fun q => p.1 :: q))

def pyPerms {α : Type} (l : List α) : List (List α) := pyPermsF l.length l

/-- The candidate-selection key of `_try_order`:
`(len(covers), -sum(missing[s] for s in covers), pid)`, compared strictly. -/
def tryKeyLT (a b : ℤ × ℤ × ℕ) : Bool :=
  decide (a.1 < b.1 ∨ (a.1 = b.1 ∧ (a.2.1 < b.2.1 ∨ (a.2.1 = b.2.1 ∧ a.2.2 < b.2.2))))

/-- The skills a person can still cover for the current `missing` dict
(`[s for s in p.skills if s in missing and missing[s] > 0]`; the Python set
iteration order is modelled canonically as ascending). -/
def coversOf (missing : List (ℕ × ℤ)) (p : HPerson) : List ℕ :=
  (p.skills.sort (· ≤ ·)).filter (fun s => (missing.any (fun e => e.1 == s)) && decide (0 < skillCount missing s))

/-- One best-candidate scan of the `while uncovered() > 0` loop
(lines 130-154): over people in sorted order, keep the candidate with the
strictly largest key. -/
def bestCandidate (ctx : HCtx) (snapshot : ℕ → List ℤ) (assigned_today : Finset ℕ)
    (missing : List (ℕ × ℤ)) : Option (HPerson × List ℕ) :=
  ctx.people.foldl
    (fun best p =>
      if p.person_id ∈ assigned_today then best
      else if ¬ ((snapshot p.person_id).sum + 1 ≤ 5) then best
      else
        let covers := coversOf missing p
        if covers.isEmpty then best
        else
          let ck : ℤ × ℤ × ℕ :=
            (covers.length, -((covers.map (skillCount missing)).sum), p.person_id)
          let bk : ℤ × ℤ × ℕ :=
            match best with
            | none => (0, 0, 0)
            | some b => (b.2.length, -((b.2.map (skillCount missing)).sum), b.1.person_id)
          if tryKeyLT bk ck then some (p, covers) else best)
    none

/-- Append `pid` to the coverage list of each covered skill
(`apt.skill_coverage.setdefault(s, []).append(pid)`; the keys are already
present, seeded from `missing`). -/
def addCoverage (cov : List (ℕ × List ℕ)) (covers : List ℕ) (pid : ℕ) : List (ℕ × List ℕ) :=
  covers.foldl (fun c s => c.map (fun e => if e.1 = s then (e.1, e.2 ++ [pid]) else e)) cov

/-- State of the per-task assignment loop in `_try_order`. -/
structure TryTaskState where
  snapshot : ℕ → List ℤ
  assigned_today : Finset ℕ
  missing : List (ℕ × ℤ)
  cov : List (ℕ × List ℕ)
  contrib : List (ℕ × List ℕ)

/-- The `while uncovered() > 0` loop of `_try_order`, with fuel equal to the
initial uncovered total (every iteration covers at least one missing unit). -/
def tryTaskLoop (ctx : HCtx) : ℕ → TryTaskState → Option TryTaskState
  | 0, st => some st
  | fuel + 1, st =>
    if (st.missing.map (fun e => max 0 e.2)).sum ≤ 0 then some st
    else
      match bestCandidate ctx st.snapshot st.assigned_today st.missing with
      | none => none
      | some (p, covers) =>
        tryTaskLoop ctx fuel
          { snapshot := fun pid =>
              if pid = p.person_id then dequeAppend (st.snapshot pid) 1 else st.snapshot pid
            assigned_today := insert p.person_id st.assigned_today
            missing := covers.foldl (fun m s => decSkill m s) st.missing
            cov := addCoverage st.cov covers p.person_id
            contrib := st.contrib ++ [(p.person_id, covers)] }

/-- `HorizonScheduler._try_order` (lines 117-173): returns the updated
`(snapshot, assigned_today)` view and the day schedule on success. -/
def tryOrder (ctx : HCtx) (histories : ℕ → List ℤ) (tasks_today : List HTask) (dateD : ℤ) :
    Option (Finset ℕ × HDaySchedule) :=
  let step := fun (acc : Option ((ℕ → List ℤ) × Finset ℕ × List APT)) (task : HTask) =>
    match acc with
    | none => none
    | some (snapshot, assigned_today, apts) =>
      let missing : List (ℕ × ℤ) := task.required_skills.filter (fun e => 0 < e.2)
      let st0 : TryTaskState :=
        { snapshot := snapshot, assigned_today := assigned_today, missing := missing
          cov := missing.map (fun e => (e.1, ([] : List ℕ)))
          contrib := [] }
      match tryTaskLoop ctx ((missing.map (fun (e : ℕ × ℤ) => max 0 e.2)).sum.toNat + 1) st0 with
      | none => none
      | some st1 =>
        some (st1.snapshot, st1.assigned_today,
          apts ++ [{ task_id := task.task_id, skill_coverage := st1.cov,
                     people_contributions := st1.contrib }])
  match tasks_today.foldl step (some (histories, ∅, [])) with
  | none => none
  | some (_, assigned_today, apts) => some (assigned_today, { date := dateD, assignments := apts })

/-- `HorizonScheduler._commit_day_usage` (lines 111-115): append one bit to
every person's rolling history. -/
def commitDayUsage (ctx : HCtx) (histories : ℕ → List ℤ) (assigned_today : Finset ℕ) :
    ℕ → List ℤ :=
  fun pid =>
    if (ctx.people.any (fun p => p.person_id == pid)) then
      dequeAppend (histories pid) (if pid ∈ assigned_today then 1 else 0)
    else histories pid

/-- Deduplicate the list of candidate orderings by their task-id signature
(lines 204-210). -/
def dedupOrderings (orderings : List (List HTask)) : List (List HTask) :=
  (orderings.foldl
    (fun (acc : List (List HTask) × List (List ℕ)) ord =>
      let sig := ord.map (fun t => t.task_id)
      if sig ∈ acc.2 then acc else (acc.1 ++ [ord], acc.2 ++ [sig]))
    ([], [])).1

/-- The ordering candidates of `_attempt_day` (lines 190-210): the active
order, the rarity order, the earliest-end order, and — when at most six
tasks are active — every permutation, deduplicated by signature. -/
def orderingsFor (ctx : HCtx) (tasks_today : List HTask) : List (List HTask) :=
  dedupOrderings
    ([tasks_today, tasks_today.insertionSort (rarityLE ctx), tasks_today.insertionSort eefLE] ++
      (if tasks_today.length ≤ 6 then pyPerms tasks_today else []))

/-- `HorizonScheduler._attempt_day` (lines 175-221). -/
def attemptDay (ctx : HCtx) (st : HState) (day_start_ts day_end_ts dateD current_ts : ℤ)
    (allow_future : Bool) : HState × Bool × HDaySchedule :=
  if !allow_future && decide (current_ts < day_start_ts) then
    (st, true, { date := dateD, assignments := [] })
  else
    let tasks_today := activeTasksForDay ctx day_start_ts day_end_ts
    if tasks_today.isEmpty then
      ({ st with histories := commitDayUsage ctx st.histories ∅ }, true,
        { date := dateD, assignments := [] })
    else
      match firstSome (fun ord => tryOrder ctx st.histories ord dateD)
          (orderingsFor ctx tasks_today) with
      | some (assigned_today, ds) =>
        ({ st with histories := commitDayUsage ctx st.histories assigned_today }, true, ds)
      | none =>
        ({ histories := commitDayUsage ctx st.histories ∅,
           violations := st.violations ++ [dateD] }, false,
          { date := dateD, assignments := [] })

/-! ## Concrete scenario constants used by the boundary theorems -/

/-- Two people who each hold both skills `1` and `2`. -/
def cexPeople : List Person := [⟨1, 1, {1, 2}⟩, ⟨2, 2, {1, 2}⟩]

/-- A task requiring one person with skill `1` and two with skill `2`,
active around day `0`. -/
def cexTask : Task := ⟨1, 1, 0, 1000000, [(1, 1), (2, 2)]⟩

/-- A task whose interval is exactly day `0`: it ends at the first second of
day `1` (`end_epoch = start_of_day(1)`). -/
def edgeTask : Task := ⟨1, 1, 0, 86400, [(1, 1)]⟩

/-- A starting store in which person `0` is already committed to all seven
days `0..6` of the week being scheduled. -/
def cexStore : PlanStore := [(0, {0, 1, 2, 3, 4, 5, 6})]

/-- A task requiring one person with skill `1`, active around day `0`. -/
def soloTask : Task := ⟨1, 1, 0, 1000000, [(1, 1)]⟩

/-- One person with the single skill `1`. -/
def soloPerson : Person := ⟨1, 1, {1}⟩

/-- A one-person horizon context whose person preworked one of the previous
six days, so their history is `[0,0,0,0,0,1]`. -/
def hctx1 : HCtx := { people := [⟨1, {1}, 1⟩], tasks := [] }

/-- The horizon state at the start of `hctx1`ʼs run. -/
def hstate1 : HState := { histories := fun _ => initHistory 1, violations := [] }

/-! ## Helper lemmas -/

theorem can_assign_false_iff (st : PlanStore) (pid : ℕ) (day : ℤ) :
    can_assign st pid day false = true ↔ count_in_window st pid (day - 6) day ≤ 4 := by
  simp [can_assign]

theorem can_assign_true_iff (st : PlanStore) (pid : ℕ) (day : ℤ) :
    can_assign st pid day true = true ↔
      count_in_window st pid (day - 6) day +
        (if day ∈ storeDays st pid then 0 else 1) ≤ 5 := by
  by_cases h : day ∈ storeDays st pid <;> simp [can_assign, assigned_on, h]

theorem firstSome_eq_some {α β : Type} {f : α → Option β} {l : List α} {b : β}
    (h : firstSome f l = some b) : ∃ a ∈ l, f a = some b := by
  induction l with
  | nil => simp [firstSome] at h
  | cons a l ih =>
    rw [firstSome] at h
    rcases hfa : f a with _ | c
    · rw [hfa] at h
      obtain ⟨x, hx, hfx⟩ := ih h
      exact ⟨x, List.mem_cons_of_mem _ hx, hfx⟩
    · rw [hfa] at h
      exact ⟨a, List.mem_cons_self a l, by rw [hfa]; exact h⟩

theorem mem_candidatesFor {ctx : DayCtx} {ds : Deficits} {assigned : List (ℕ × ℕ)}
    {tid skill : ℕ} {p : Person} (h : p ∈ candidatesFor ctx ds assigned tid skill) :
    p ∈ ctx.people ∧ eligible ctx assigned (taskById ctx.tasks tid) skill p = true := by
  unfold candidatesFor at h
  obtain ⟨x, hx, hxp⟩ := List.mem_map.mp h
  rw [(List.perm_insertionSort candLE _).mem_iff] at hx
  obtain ⟨q, hq, hqx⟩ := List.mem_map.mp hx
  obtain ⟨hq1, hq2⟩ := List.mem_filter.mp hq
  subst hqx
  simp only at hxp
  subst hxp
  exact ⟨hq1, hq2⟩

/-! ## Claim theorems -/

/-- C3: `can_assign(P, D, pending_same_day=false)` is true iff the stored
count of committed days in the inclusive window `[D-6, D]` is at most 4,
and `can_assign(P, D, pending_same_day=true)` is true iff that count, plus
one when `P` is not already stored as assigned on `D`, is at most 5. -/
theorem claim_C3 (st : PlanStore) (pid : ℕ) (day : ℤ) :
    (can_assign st pid day false = true ↔ count_in_window st pid (day - 6) day ≤ 4) ∧
    (can_assign st pid day true = true ↔
      count_in_window st pid (day - 6) day +
        (if assigned_on st pid day then 0 else 1) ≤ 5) := by
  refine ⟨can_assign_false_iff st pid day, ?_⟩
  rw [can_assign_true_iff st pid day]
  by_cases h : day ∈ storeDays st pid <;> simp [assigned_on, h]

/-- C10: `can_assign` with `pending_same_day=false` implies `can_assign`
with `pending_same_day=true` on the same store, person and day; therefore
the `pending_same_day=True` re-check inside `DaySolver.solve.backtrack`
accepts every candidate produced by `_candidates_for` (the store is never
mutated between the two checks). -/
theorem claim_C10 :
    (∀ (st : PlanStore) (pid : ℕ) (day : ℤ),
      can_assign st pid day false = true → can_assign st pid day true = true) ∧
    (∀ (ctx : DayCtx) (ds : Deficits) (assigned : List (ℕ × ℕ)) (tid skill : ℕ)
      (p : Person), p ∈ candidatesFor ctx ds assigned tid skill →
        can_assign ctx.store p.person_id ctx.day true = true) := by
  have base : ∀ (st : PlanStore) (pid : ℕ) (day : ℤ),
      can_assign st pid day false = true → can_assign st pid day true = true := by
    intro st pid day h
    rw [can_assign_false_iff] at h
    rw [can_assign_true_iff]
    split <;> omega
  refine ⟨base, ?_⟩
  intro ctx ds assigned tid skill p hp
  have he := (mem_candidatesFor hp).2
  unfold eligible at he
  simp only [Bool.and_eq_true] at he
  exact base _ _ _ he.2

/-- Witness for C10 at a concrete input: person `1` with an empty store is a
candidate for `soloTask`, and the re-check accepts them. -/
theorem claim_C10_witness :
    can_assign ([] : PlanStore) 1 0 true = true :=
  claim_C10.2 ⟨0, [soloPerson], [soloTask], [], ∅⟩ (initDeficits [soloTask]) [] 1 1
    soloPerson (by decide)

/-- C4 counterexample: `edgeTask` has `end_epoch = start_of_day(day 1)`
(= 86400 with a zero offset).  The spec rule (`end_ts > start_of_day(D)`,
definition `spec_active_halfopen`) makes it inactive on day 1, but the
server implementation `is_task_active_on_day` reports it active, so the
claimed half-open rule does not hold of `is_task_active_on_day`. -/
theorem claim_C4_counterexample :
    is_task_active_on_day edgeTask 1 0 = true ∧
    spec_active_halfopen edgeTask 1 0 = false := by
  constructor <;> decide

/-- C4 amended: the server variant `is_task_active_on_day` treats a task as
active on day `D` iff `start_ts < end_of_day(D)` and `end_ts ≥
start_of_day(D)` — inclusive, not strict, at the lower end, so a task whose
`end_ts` equals `start_of_day(D)` *is* active on `D`; a task beginning
exactly at `end_of_day(D)` is not.  The horizon variant
`Task.is_active_on_day` implements the strict half-open rule exactly as the
claim states it. -/
theorem claim_C4_amended (t : Task) (day tz : ℤ) :
    (is_task_active_on_day t day tz = true ↔
      t.start_epoch < dayStartEpoch (day + 1) tz ∧ dayStartEpoch day tz ≤ t.end_epoch) ∧
    (∀ ht : HTask,
      ht.is_active_on_day (dayStartEpoch day tz) (dayStartEpoch (day + 1) tz) = true ↔
        ht.start_ts < dayStartEpoch (day + 1) tz ∧ dayStartEpoch day tz < ht.end_ts) := by
  constructor
  · simp only [is_task_active_on_day, epoch_to_date, dayStartEpoch, decide_eq_true_eq]
    rw [Int.fdiv_eq_ediv _ (by norm_num), Int.fdiv_eq_ediv _ (by norm_num)]
    omega
  · intro ht
    simp [HTask.is_active_on_day]

/-- C9: deserializing the serialized portable form of a `PlanStore` yields
the same `days_by_person` mapping (indeed the identical dict). -/
theorem claim_C9 (st : PlanStore) : from_json (to_json st) = st := by
  unfold from_json to_json
  rw [List.map_map]
  conv_rhs => rw [← List.map_id st]
  refine List.map_congr_left ?_
  intro e _
  simp [Finset.sort_toFinset]

/-- Every `(person_id, task_id)` entry produced by a successful `backtrack`
run satisfies any predicate that holds of each accepted candidate. -/
theorem backtrack_inv (ctx : DayCtx) (P : ℕ × ℕ → Prop)
    (hP : ∀ (ds : Deficits) (assigned : List (ℕ × ℕ)) (tid skill : ℕ) (p : Person),
      p ∈ candidatesFor ctx ds assigned tid skill →
      can_assign ctx.store p.person_id ctx.day true = true →
      P (p.person_id, (taskById ctx.tasks tid).task_id)) :
    ∀ (fuel : ℕ) (ds : Deficits) (assigned res : List (ℕ × ℕ)),
      backtrack ctx fuel ds assigned = some res →
      (∀ e ∈ assigned, P e) → (∀ e ∈ res, P e) := by
  intro fuel
  induction fuel with
  | zero => intro ds assigned res h; simp [backtrack] at h
  | succ fuel ih =>
    intro ds assigned res h hass
    rw [backtrack] at h
    split at h
    · obtain rfl : assigned = res := by simpa using h
      exact hass
    · split at h
      · obtain rfl : assigned = res := by simpa using h
        exact hass
      · rename_i need tid skill heq
        obtain ⟨p, hp, hfp⟩ := firstSome_eq_some h
        split at hfp
        · rename_i hcan
          refine ih _ _ _ hfp ?_
          intro e he
          rcases List.mem_append.mp he with he | he
          · exact hass e he
          · obtain rfl : e = (p.person_id, (taskById ctx.tasks tid).task_id) := by
              simpa using he
            exact hP _ _ _ _ _ hp hcan
        · exact absurd hfp (by simp)

/-- Every assignment returned by `solveDay` is dated on the solved day, its
person is outside the PTO set, and it passed the `pending_same_day=True`
rolling-cap check against the store the solver was given. -/
theorem mem_solveDay_assignments {d : ℤ} {people : List Person} {tasks : List Task}
    {store : PlanStore} {pto : Finset ℕ} {a : Assignment}
    (ha : a ∈ (solveDay d people tasks store pto).2.1) :
    a.day = d ∧ a.person_id ∉ pto ∧ can_assign store a.person_id d true = true := by
  simp only [solveDay] at ha
  split at ha
  · simp at ha
  · split at ha
    · rename_i assigned hbt
      simp only [List.mem_map] at ha
      obtain ⟨e, he, rfl⟩ := ha
      rw [(List.perm_insertionSort _ _).mem_iff] at he
      have hinv := backtrack_inv _
        (fun e => e.1 ∉ (⟨d, people.insertionSort personLE, tasks.insertionSort taskLE,
            store, pto⟩ : DayCtx).pto ∧
          can_assign store e.1 d true = true)
        (by
          intro ds assigned tid skill p hp hcan
          have he := (mem_candidatesFor hp).2
          unfold eligible at he
          simp only [Bool.and_eq_true, Bool.not_eq_true] at he
          refine ⟨?_, hcan⟩
          have := he.1.1.1.1
          simp [isPto] at this
          exact this)
        _ _ _ _ hbt (by simp) e he
      exact ⟨rfl, hinv.1, hinv.2⟩
    · simp at ha

/-- C5: no person in the PTO set for day `D` appears in the assignment list
returned by `DaySolver.solve` for `D`. -/
theorem claim_C5 (d : ℤ) (people : List Person) (tasks : List Task)
    (store : PlanStore) (pto : Finset ℕ) (a : Assignment)
    (ha : a ∈ (solveDay d people tasks store pto).2.1) : a.person_id ∉ pto :=
  (mem_solveDay_assignments ha).2.1

/-- Witness for C5 at a concrete input: with person `2` on PTO, the solved
day assigns person `1`, who is indeed not in the PTO set. -/
theorem claim_C5_witness :
    (⟨0, 1, 1, [1]⟩ : Assignment).person_id ∉ ({2} : Finset ℕ) :=
  claim_C5 0 [soloPerson] [soloTask] [] {2} ⟨0, 1, 1, [1]⟩ (by decide)

theorem mem_storeDays_storeAdd (st : PlanStore) (q : ℕ) (dd : ℤ) (pid : ℕ) (x : ℤ) :
    x ∈ storeDays (storeAdd st q dd) pid ↔
      x ∈ storeDays st pid ∨ (pid = q ∧ x = dd) := by
  induction st with
  | nil =>
    by_cases h : q = pid
    · subst h
      simp [storeAdd, storeDays, or_comm]
    · have h2 : ¬ pid = q := fun hc => h hc.symm
      simp [storeAdd, storeDays, h, h2]
  | cons e rest ih =>
    rcases e with ⟨k, s⟩
    by_cases h1 : k = q
    · subst h1
      by_cases h2 : k = pid
      · subst h2
        have e1 : storeAdd ((k, s) :: rest) k dd = (k, insert dd s) :: rest := by
          simp [storeAdd]
        have e2 : ∀ (v : Finset ℤ) (l : PlanStore), storeDays ((k, v) :: l) k = v := by
          intro v l
          simp [storeDays]
        rw [e1, e2, e2]
        simp only [Finset.mem_insert]
        tauto
      · have h3 : ¬ pid = k := fun hc => h2 hc.symm
        simp [storeAdd, storeDays, h2, h3]
    · by_cases h2 : k = pid
      · subst h2
        have h3 : ¬ k = q := h1
        simp [storeAdd, storeDays, h3, fun hc : k = q => h1 hc]
      · simp [storeAdd, storeDays, h1, h2, ih]

theorem mem_storeDays_commit (asgs : List Assignment) :
    ∀ (st : PlanStore) (pid : ℕ) (x : ℤ),
      x ∈ storeDays (commit st asgs) pid ↔
        x ∈ storeDays st pid ∨ ∃ a ∈ asgs, a.person_id = pid ∧ a.day = x := by
  induction asgs with
  | nil => intro st pid x; simp [commit]
  | cons a rest ih =>
    intro st pid x
    have step : commit st (a :: rest) = commit (storeAdd st a.person_id a.day) rest := rfl
    rw [step, ih, mem_storeDays_storeAdd]
    constructor
    · rintro ((h | ⟨rfl, rfl⟩) | ⟨b, hb, h1, h2⟩)
      · exact Or.inl h
      · exact Or.inr ⟨a, List.mem_cons_self _ _, rfl, rfl⟩
      · exact Or.inr ⟨b, List.mem_cons_of_mem _ hb, h1, h2⟩
    · rintro (h | ⟨b, hb, h1, h2⟩)
      · exact Or.inl (Or.inl h)
      · rcases List.mem_cons.mp hb with rfl | hb
        · exact Or.inl (Or.inr ⟨h1.symm, h2.symm⟩)
        · exact Or.inr ⟨b, hb, h1, h2⟩

/-- If the store only holds days at most `m`, a cap that holds for every
window ending at most `m` also holds for windows ending at `m + 1`. -/
theorem cap_extend {st : PlanStore} {m : ℤ}
    (hb : ∀ pid x, x ∈ storeDays st pid → x ≤ m)
    (hc : ∀ pid D, D ≤ m → count_in_window st pid (D - 6) D ≤ 5) :
    ∀ pid D, D ≤ m + 1 → count_in_window st pid (D - 6) D ≤ 5 := by
  intro pid D hD
  rcases lt_or_eq_of_le hD with h | rfl
  · exact hc pid D (by omega)
  · calc count_in_window st pid (m + 1 - 6) (m + 1)
        ≤ count_in_window st pid (m - 6) m := by
          unfold count_in_window
          refine Finset.card_le_card ?_
          intro x hx
          rw [Finset.mem_filter] at hx ⊢
          exact ⟨hx.1, by have := hb pid x hx.1; omega⟩
      _ ≤ 5 := hc pid m le_rfl

/-- Committing assignments all dated `d` does not change any window that
ends before `d`. -/
theorem count_commit_of_hi_lt {asgs : List Assignment} {d : ℤ}
    (hday : ∀ a ∈ asgs, a.day = d) (st : PlanStore) (pid : ℕ) {lo hi : ℤ}
    (hhi : hi < d) :
    count_in_window (commit st asgs) pid lo hi = count_in_window st pid lo hi := by
  unfold count_in_window
  congr 1
  apply Finset.ext
  intro x
  rw [Finset.mem_filter, Finset.mem_filter, mem_storeDays_commit]
  constructor
  · rintro ⟨h | ⟨a, ha, -, rfl⟩, hw⟩
    · exact ⟨h, hw⟩
    · have := hday a ha
      omega
  · rintro ⟨h, hw⟩
    exact ⟨Or.inl h, hw⟩

/-- One step of the `schedule_week` loop preserves the rolling-cap
invariant, moving the day bound forward by one. -/
theorem weekStep_preserves (people : List Person) (tasks : List Task) (now_epoch : ℤ)
    (pto : PtoMap) (tz : ℤ) (st : WeekState) (d : ℤ)
    (hb : ∀ pid x, x ∈ storeDays st.store pid → x ≤ d - 1)
    (hc : ∀ pid D, D ≤ d - 1 → count_in_window st.store pid (D - 6) D ≤ 5) :
    (∀ pid x, x ∈ storeDays (weekStep people tasks now_epoch pto tz st d).store pid → x ≤ d) ∧
    (∀ pid D, D ≤ d →
      count_in_window (weekStep people tasks now_epoch pto tz st d).store pid (D - 6) D ≤ 5) := by
  have hskip : (∀ pid x, x ∈ storeDays st.store pid → x ≤ d) ∧
      (∀ pid D, D ≤ d → count_in_window st.store pid (D - 6) D ≤ 5) := by
    refine ⟨fun pid x hx => by have := hb pid x hx; omega, ?_⟩
    have := cap_extend hb hc
    intro pid D hD
    exact this pid D (by omega)
  simp only [weekStep]
  split
  · exact hskip
  · set R := solveDay d people
      (tasks.filter (fun t => is_task_active_on_day t d tz && decide (now_epoch ≤ t.end_epoch)))
      st.store (pto d) with hR
    split
    · have hmem : ∀ a ∈ R.2.1, a.day = d ∧ can_assign st.store a.person_id d true = true := by
        intro a ha
        rw [hR] at ha
        have := mem_solveDay_assignments ha
        exact ⟨this.1, this.2.2⟩
      have hday : ∀ a ∈ R.2.1, a.day = d := fun a ha => (hmem a ha).1
      constructor
      · intro pid x hx
        rcases (mem_storeDays_commit _ _ _ _).mp hx with h | ⟨a, ha, -, rfl⟩
        · have := hb pid x h; omega
        · rw [hday a ha]
      · intro pid D hD
        rcases lt_or_eq_of_le hD with hlt | rfl
        · rw [count_commit_of_hi_lt hday st.store pid hlt]
          exact hc pid D (by omega)
        · by_cases hpa : ∃ a ∈ R.2.1, a.person_id = pid
          · obtain ⟨a, ha, hapid⟩ := hpa
            have hset : storeDays (commit st.store R.2.1) pid =
                insert D (storeDays st.store pid) := by
              apply Finset.ext
              intro x
              rw [mem_storeDays_commit, Finset.mem_insert]
              constructor
              · rintro (h | ⟨b, hb2, -, rfl⟩)
                · exact Or.inr h
                · exact Or.inl (hday b hb2)
              · rintro (rfl | h)
                · exact Or.inr ⟨a, ha, hapid, hday a ha⟩
                · exact Or.inl h
            have hcan := (hmem a ha).2
            rw [hapid] at hcan
            rw [can_assign_true_iff] at hcan
            unfold count_in_window at hcan ⊢
            rw [hset, Finset.filter_insert, if_pos (by constructor <;> omega)]
            by_cases hDm : D ∈ storeDays st.store pid
            · rw [Finset.insert_eq_self.mpr (Finset.mem_filter.mpr ⟨hDm, by constructor <;> omega⟩)]
              simp only [if_pos hDm] at hcan
              omega
            · rw [Finset.card_insert_of_not_mem (fun hx => hDm (Finset.mem_filter.mp hx).1)]
              simp only [if_neg hDm] at hcan
              omega
          · have hset : storeDays (commit st.store R.2.1) pid = storeDays st.store pid := by
              apply Finset.ext
              intro x
              rw [mem_storeDays_commit]
              constructor
              · rintro (h | ⟨b, hb2, hbp, -⟩)
                · exact h
                · exact absurd ⟨b, hb2, hbp⟩ hpa
              · exact fun h => Or.inl h
            unfold count_in_window
            rw [hset]
            exact hskip.2 pid D le_rfl
    · exact hskip

/-- The rolling-cap invariant carried across the first `n` days of the
`schedule_week` fold. -/
theorem schedule_week_inv (people : List Person) (tasks : List Task) (store : PlanStore)
    (w now_epoch : ℤ) (pto : PtoMap) (tz : ℤ)
    (hb0 : ∀ pid x, x ∈ storeDays store pid → x < w)
    (hc0 : ∀ pid D, D < w → count_in_window store pid (D - 6) D ≤ 5) :
    ∀ n : ℕ,
      (∀ pid x, x ∈ storeDays
          (((List.range n).map (fun i : ℕ => w + (i : ℤ))).foldl
            (weekStep people tasks now_epoch pto tz)
            { store := store, assignments := [], unsatisfied := [] }).store pid →
        x ≤ w + n - 1) ∧
      (∀ pid D, D ≤ w + n - 1 →
        count_in_window
          (((List.range n).map (fun i : ℕ => w + (i : ℤ))).foldl
            (weekStep people tasks now_epoch pto tz)
            { store := store, assignments := [], unsatisfied := [] }).store pid (D - 6) D ≤ 5) := by
  intro n
  induction n with
  | zero =>
    constructor
    · intro pid x hx
      have := hb0 pid x hx
      push_cast
      omega
    · intro pid D hD
      refine hc0 pid D ?_
      push_cast at hD
      omega
  | succ n ih =>
    rw [List.range_succ, List.map_append, List.foldl_append]
    have step := weekStep_preserves people tasks now_epoch pto tz
      (((List.range n).map (fun i : ℕ => w + (i : ℤ))).foldl
        (weekStep people tasks now_epoch pto tz)
        { store := store, assignments := [], unsatisfied := [] })
      (w + n)
      (by intro pid x hx; have := ih.1 pid x hx; omega)
      (by intro pid D hD; exact ih.2 pid D (by omega))
    constructor
    · intro pid x hx
      have := step.1 pid x (by simpa using hx)
      push_cast
      omega
    · intro pid D hD
      have := step.2 pid D (by push_cast at hD; omega)
      simpa using this

/-- C2 counterexample: the claim fails as stated.  The starting store
`cexStore` commits person `0` to all seven days `0..6` of the week, so it
satisfies the rolling cap for every window ending before the week
(`D < 0`), and `schedule_week` (with no tasks) completes with no
unsatisfied day and commits nothing — yet the window `[0, 6]` holds 7 > 5
committed days. -/
theorem claim_C2_counterexample :
    (∀ pid D, D < 0 → count_in_window cexStore pid (D - 6) D ≤ 5) ∧
    (schedule_week [⟨0, 0, ∅⟩] [] cexStore 0 0 (fun _ => ∅) 0).unsatisfied = [] ∧
    ¬ count_in_window
        (schedule_week [⟨0, 0, ∅⟩] [] cexStore 0 0 (fun _ => ∅) 0).store 0 (6 - 6) 6 ≤ 5 := by
  refine ⟨?_, by decide, by decide⟩
  intro pid D hD
  unfold count_in_window cexStore
  have : (storeDays [(0, ({0, 1, 2, 3, 4, 5, 6} : Finset ℤ))] pid).filter
      (fun x => D - 6 ≤ x ∧ x ≤ D) = ∅ := by
    apply Finset.filter_eq_empty_iff.mpr
    intro x hx
    have hx0 : (0 : ℤ) ≤ x := by
      rcases Nat.eq_zero_or_pos pid with rfl | hpid
      · simp [storeDays] at hx
        rcases hx with rfl | rfl | rfl | rfl | rfl | rfl | rfl <;> norm_num
      · have : ¬ ((0 : ℕ) = pid) := by omega
        simp [storeDays, this] at hx
    intro hc
    omega
  rw [this]
  simp

/-- C2 amended: if the starting store commits only days strictly before the
week start and satisfies the rolling cap for every window ending before the
week, then after `schedule_week` completes every person's committed-day
count in every window `[D-6, D]` ending inside the week is at most 5.  (The
unamended claim omits the first hypothesis; `claim_C2_counterexample` shows
it is then false, because the starting store may itself hold more than five
days inside the week and `schedule_week` never removes committed days.) -/
theorem claim_C2_amended (people : List Person) (tasks : List Task) (store : PlanStore)
    (w now_epoch : ℤ) (pto : PtoMap) (tz : ℤ)
    (hb0 : ∀ pid x, x ∈ storeDays store pid → x < w)
    (hc0 : ∀ pid D, D < w → count_in_window store pid (D - 6) D ≤ 5) :
    ∀ pid D, w ≤ D → D ≤ w + 6 →
      count_in_window (schedule_week people tasks store w now_epoch pto tz).store
        pid (D - 6) D ≤ 5 := by
  intro pid D hD1 hD2
  have h := (schedule_week_inv people tasks store w now_epoch pto tz hb0 hc0 7).2 pid D
    (by push_cast; omega)
  exact h

/-- Witness for C2 at a concrete input: an empty starting store satisfies
both hypotheses, and the window ending on day 6 of the week holds at most
five committed days after the week is scheduled. -/
theorem claim_C2_witness :
    count_in_window
      (schedule_week [soloPerson] [soloTask] [] 0 0 (fun _ => ∅) 0).store 1 (6 - 6) 6 ≤ 5 :=
  claim_C2_amended [soloPerson] [soloTask] [] 0 0 (fun _ => ∅) 0
    (by intro pid x hx; simp [storeDays] at hx)
    (by intro pid D hD; simp [count_in_window, storeDays])
    1 6 (by norm_num) (by norm_num)

theorem needStep_eq_none {t : Task} {best : Option (ℕ × ℕ × ℕ × ℤ)} {e : ℕ × ℤ}
    (h : needStep t best e = none) : best = none ∧ e.2 ≤ 0 := by
  unfold needStep at h
  by_cases hpos : 0 < e.2
  · rw [if_pos hpos] at h
    cases best with
    | none => simp at h
    | some b => simp [ite_eq_iff] at h
  · rw [if_neg hpos] at h
    exact ⟨h, by omega⟩

theorem foldl_needStep_eq_none {t : Task} {l : List (ℕ × ℤ)} :
    ∀ {best : Option (ℕ × ℕ × ℕ × ℤ)}, l.foldl (needStep t) best = none →
      best = none ∧ ∀ e ∈ l, e.2 ≤ 0 := by
  induction l with
  | nil => intro best h; simpa using h
  | cons e rest ih =>
    intro best h
    rw [List.foldl_cons] at h
    obtain ⟨h1, h2⟩ := ih h
    obtain ⟨h3, h4⟩ := needStep_eq_none h1
    exact ⟨h3, by
      intro x hx
      rcases List.mem_cons.mp hx with rfl | hx
      · exact h4
      · exact h2 x hx⟩

theorem selectNextNeed_eq_none {tasks : List Task} {ds : Deficits}
    (h : selectNextNeed tasks ds = none) :
    ∀ t ∈ tasks, ∀ e ∈ defLookup ds t.task_id, e.2 ≤ 0 := by
  unfold selectNextNeed at h
  rw [Option.map_eq_none'] at h
  suffices hgen : ∀ (l : List Task) (best : Option (ℕ × ℕ × ℕ × ℤ)),
      l.foldl (fun b t => (defLookup ds t.task_id).foldl (needStep t) b) best = none →
      ∀ t ∈ l, ∀ e ∈ defLookup ds t.task_id, e.2 ≤ 0 by
    exact hgen tasks none h
  intro l
  induction l with
  | nil => intro best h t ht; simp at ht
  | cons t0 rest ih =>
    intro best h t ht
    rw [List.foldl_cons] at h
    rcases List.mem_cons.mp ht with rfl | ht
    · have hmid : (defLookup ds t.task_id).foldl (needStep t) best = none := by
        by_contra hne
        rcases Option.ne_none_iff_exists.mp hne with ⟨b, hb⟩
        have : ∀ (l2 : List Task) (b : ℕ × ℕ × ℕ × ℤ),
            l2.foldl (fun bb tt => (defLookup ds tt.task_id).foldl (needStep tt) bb) (some b) ≠ none := by
          intro l2
          induction l2 with
          | nil => intro b; simp
          | cons t2 r2 ih2 =>
            intro b
            rw [List.foldl_cons]
            have : ∀ (l3 : List (ℕ × ℤ)) (b : ℕ × ℕ × ℕ × ℤ),
                l3.foldl (needStep t2) (some b) ≠ none := by
              intro l3
              induction l3 with
              | nil => intro b; simp
              | cons e3 r3 ih3 =>
                intro b
                rw [List.foldl_cons]
                rcases he : needStep t2 (some b) e3 with _ | b2
                · exact absurd (needStep_eq_none he).1 (by simp)
                · exact ih3 b2
            rcases hmid2 : (defLookup ds t2.task_id).foldl (needStep t2) (some b) with _ | b2
            · exact absurd hmid2 (this _ b)
            · exact ih2 b2
        exact this rest b (hb ▸ h)
      exact (foldl_needStep_eq_none hmid).2
    · exact ih _ h t ht

theorem mem_dictInsert {ds : Deficits} {k : ℕ} {v : List (ℕ × ℤ)} {en : ℕ × List (ℕ × ℤ)}
    (h : en ∈ dictInsert ds k v) : en ∈ ds ∨ en.1 = k := by
  unfold dictInsert at h
  split at h
  · obtain ⟨x, hx, hxe⟩ := List.mem_map.mp h
    split at hxe
    · exact Or.inr (hxe ▸ rfl)
    · exact Or.inl (hxe ▸ hx)
  · rcases List.mem_append.mp h with h | h
    · exact Or.inl h
    · simp at h
      exact Or.inr (h ▸ rfl)

theorem dictInsert_keys {ds : Deficits} {k : ℕ} {v : List (ℕ × ℤ)} :
    (dictInsert ds k v).map Prod.fst = ds.map Prod.fst ∨
    (dictInsert ds k v).map Prod.fst = ds.map Prod.fst ++ [k] := by
  unfold dictInsert
  split
  · left
    rw [List.map_map]
    refine List.map_congr_left ?_
    intro e _
    by_cases he : e.1 = k <;> simp [he]
  · right
    simp

theorem dictInsert_keys_nodup {ds : Deficits} {k : ℕ} {v : List (ℕ × ℤ)}
    (hnd : (ds.map Prod.fst).Nodup) : ((dictInsert ds k v).map Prod.fst).Nodup := by
  unfold dictInsert
  split
  · rw [List.map_map]
    have : (ds.map (Prod.fst ∘ fun e => if e.1 = k then (k, v) else e)) = ds.map Prod.fst := by
      refine List.map_congr_left ?_
      intro e _
      by_cases he : e.1 = k <;> simp [he]
    rw [this]
    exact hnd
  · rename_i hne
    rw [List.map_append]
    refine List.Nodup.append hnd (by simp) ?_
    intro x hx hy
    simp at hy
    subst hy
    obtain ⟨e, he, hek⟩ := List.mem_map.mp hx
    exact absurd (List.any_eq_true.mpr ⟨e, he, by simp [hek]⟩) hne

theorem mem_foldl_dictInsert {f : Task → List (ℕ × ℤ)} :
    ∀ (l : List Task) (acc : Deficits) (en : ℕ × List (ℕ × ℤ)),
      en ∈ l.foldl (fun ds t => dictInsert ds t.task_id (f t)) acc →
      en ∈ acc ∨ ∃ t ∈ l, t.task_id = en.1 := by
  intro l
  induction l with
  | nil => intro acc en h; exact Or.inl h
  | cons t rest ih =>
    intro acc en h
    rw [List.foldl_cons] at h
    rcases ih _ en h with h2 | ⟨t2, ht2, he⟩
    · rcases mem_dictInsert h2 with h3 | h3
      · exact Or.inl h3
      · exact Or.inr ⟨t, List.mem_cons_self _ _, h3.symm⟩
    · exact Or.inr ⟨t2, List.mem_cons_of_mem _ ht2, he⟩

theorem foldl_dictInsert_keys_nodup {f : Task → List (ℕ × ℤ)} :
    ∀ (l : List Task) (acc : Deficits), ((acc.map Prod.fst).Nodup) →
      ((l.foldl (fun ds t => dictInsert ds t.task_id (f t)) acc).map Prod.fst).Nodup := by
  intro l
  induction l with
  | nil => intro acc h; exact h
  | cons t rest ih =>
    intro acc h
    rw [List.foldl_cons]
    exact ih _ (dictInsert_keys_nodup h)

theorem initDeficits_keys_nodup (tasks : List Task) :
    ((initDeficits tasks).map Prod.fst).Nodup :=
  foldl_dictInsert_keys_nodup tasks [] (by simp)

theorem find_key_nodup {β : Type} {l : List (ℕ × β)} (hnd : (l.map Prod.fst).Nodup)
    {e : ℕ × β} (he : e ∈ l) : l.find? (fun x => x.1 == e.1) = some e := by
  induction l with
  | nil => simp at he
  | cons a rest ih =>
    by_cases ha : a.1 = e.1
    · have heq : a = e := by
        refine List.inj_on_of_nodup_map hnd (List.mem_cons_self _ _) he ha
      rw [List.find?_cons_of_pos _ (by simp [ha])]
      rw [heq]
    · have he2 : e ∈ rest := by
        rcases List.mem_cons.mp he with rfl | h
        · exact absurd rfl ha
        · exact h
      rw [List.find?_cons_of_neg _ (by simp [ha])]
      exact ih (by
        rw [List.map_cons] at hnd
        exact (List.nodup_cons.mp hnd).2) he2

theorem defLookup_of_mem {ds : Deficits} (hnd : (ds.map Prod.fst).Nodup)
    {en : ℕ × List (ℕ × ℤ)} (he : en ∈ ds) : defLookup ds en.1 = en.2 := by
  unfold defLookup
  rw [find_key_nodup hnd he]

theorem selectNextNeed_initDeficits_ne_none {tasks : List Task}
    (h : allSatisfied (initDeficits tasks) = false) :
    selectNextNeed tasks (initDeficits tasks) ≠ none := by
  intro hnone
  have hall := selectNextNeed_eq_none hnone
  have hex : ∃ en ∈ initDeficits tasks, ∃ e ∈ en.2, 0 < e.2 := by
    by_contra hno
    push_neg at hno
    have hT : allSatisfied (initDeficits tasks) = true := by
      unfold allSatisfied
      rw [List.all_eq_true]
      intro en hen
      rw [List.all_eq_true]
      intro e he
      simpa using hno en hen e he
    simp [hT] at h
  obtain ⟨en, hen, e, he, hpos⟩ := hex
  rcases mem_foldl_dictInsert tasks [] en hen with h2 | ⟨t, ht, htid⟩
  · simp at h2
  · have hlook : defLookup (initDeficits tasks) t.task_id = en.2 := by
      rw [htid]
      exact defLookup_of_mem (initDeficits_keys_nodup tasks) hen
    have := hall t ht e (hlook ▸ he)
    omega

theorem candidatesFor_nil {ctx : DayCtx} (hp : ctx.people = []) (ds : Deficits)
    (assigned : List (ℕ × ℕ)) (tid skill : ℕ) :
    candidatesFor ctx ds assigned tid skill = [] := by
  simp [candidatesFor, hp]

theorem backtrack_empty_people {ctx : DayCtx} (hp : ctx.people = []) (fuel : ℕ)
    (ds : Deficits) (assigned : List (ℕ × ℕ)) (hs : allSatisfied ds = false)
    (hsel : selectNextNeed ctx.tasks ds ≠ none) :
    backtrack ctx (fuel + 1) ds assigned = none := by
  rw [backtrack, if_neg (by simp [hs])]
  rcases h : selectNextNeed ctx.tasks ds with _ | need
  · exact absurd h hsel
  · obtain ⟨tid, skill⟩ := need
    show firstSome _ (candidatesFor ctx ds assigned tid skill) = none
    rw [candidatesFor_nil hp]
    rfl

/-- With an empty people list, a day solve never assigns anyone, and it
succeeds exactly when every active task's positive requirements are already
empty. -/
theorem solveDay_empty_people (d : ℤ) (tasks : List Task) (store : PlanStore)
    (pto : Finset ℕ) :
    (solveDay d [] tasks store pto).2.1 = [] ∧
    ((solveDay d [] tasks store pto).1 = true ↔
      allSatisfied (initDeficits (tasks.insertionSort taskLE)) = true) := by
  simp only [solveDay]
  by_cases hs : allSatisfied (initDeficits (tasks.insertionSort taskLE)) = true
  · simp [hs]
  · have hf : allSatisfied (initDeficits (tasks.insertionSort taskLE)) = false := by
      revert hs
      cases allSatisfied (initDeficits (tasks.insertionSort taskLE)) <;> simp
    rw [if_neg hs]
    rw [backtrack_empty_people rfl _ _ _ hf (selectNextNeed_initDeficits_ne_none hf)]
    simp [hs]

theorem weekStep_no_tasks (people : List Person) (now_epoch : ℤ) (pto : PtoMap) (tz : ℤ)
    (st : WeekState) (d : ℤ) : weekStep people [] now_epoch pto tz st d = st := by
  simp [weekStep]

theorem weekStep_unsat_extends (people : List Person) (tasks : List Task) (now_epoch : ℤ)
    (pto : PtoMap) (tz : ℤ) (st : WeekState) (d : ℤ) :
    (weekStep people tasks now_epoch pto tz st d).unsatisfied = st.unsatisfied ∨
    ∃ x, (weekStep people tasks now_epoch pto tz st d).unsatisfied = st.unsatisfied ++ [x] := by
  simp only [weekStep]
  split
  · exact Or.inl rfl
  · split
    · exact Or.inl rfl
    · exact Or.inr ⟨_, rfl⟩

theorem weekStep_empty_people_assignments (tasks : List Task) (now_epoch : ℤ)
    (pto : PtoMap) (tz : ℤ) (st : WeekState) (d : ℤ) :
    (weekStep [] tasks now_epoch pto tz st d).assignments = st.assignments := by
  simp only [weekStep]
  split
  · rfl
  · split
    · rename_i hok
      have := (solveDay_empty_people d
        (tasks.filter (fun t => is_task_active_on_day t d tz && decide (now_epoch ≤ t.end_epoch)))
        st.store (pto d)).1
      simp [this]
    · rfl

theorem weekStep_empty_people_bad_day (tasks : List Task) (now_epoch : ℤ)
    (pto : PtoMap) (tz : ℤ) (st : WeekState) (d : ℤ)
    (hact : (tasks.filter (fun t => is_task_active_on_day t d tz &&
      decide (now_epoch ≤ t.end_epoch))).isEmpty = false)
    (hsat : allSatisfied (initDeficits
      ((tasks.filter (fun t => is_task_active_on_day t d tz &&
        decide (now_epoch ≤ t.end_epoch))).insertionSort taskLE)) = false) :
    ∃ x, (weekStep [] tasks now_epoch pto tz st d).unsatisfied = st.unsatisfied ++ [x] := by
  simp only [weekStep]
  rw [if_neg (by simp [hact])]
  split
  · rename_i hok
    have := (solveDay_empty_people d
      (tasks.filter (fun t => is_task_active_on_day t d tz && decide (now_epoch ≤ t.end_epoch)))
      st.store (pto d)).2
    rw [this] at hok
    rw [hok] at hsat
    simp at hsat
  · exact ⟨_, rfl⟩

/-- C6 counterexample: with an empty people list and one active task that
requires a skill, every day of the week is unsatisfied — the result is not
feasible, contradicting the claim that an empty people list yields a
feasible schedule. -/
theorem claim_C6_counterexample :
    (schedule_week [] [soloTask] [] 0 0 (fun _ => ∅) 0).unsatisfied ≠ [] ∧
    (schedule_week [] [soloTask] [] 0 0 (fun _ => ∅) 0).assignments = [] := by
  constructor <;> decide

/-- C6 amended: an empty task list yields the untouched store, zero
assignments and no unsatisfied day, exactly as claimed.  An empty people
list still yields zero assignments, but the week is *infeasible* (has a
nonempty unsatisfied list) as soon as some day of the week has an active
task with a positive requirement. -/
theorem claim_C6_amended :
    (∀ (people : List Person) (store : PlanStore) (w now_epoch : ℤ) (pto : PtoMap) (tz : ℤ),
      schedule_week people [] store w now_epoch pto tz =
        { store := store, assignments := [], unsatisfied := [] }) ∧
    (∀ (tasks : List Task) (store : PlanStore) (w now_epoch : ℤ) (pto : PtoMap) (tz : ℤ),
      (schedule_week [] tasks store w now_epoch pto tz).assignments = [] ∧
      (∀ i : ℕ, i < 7 →
        (tasks.filter (fun t => is_task_active_on_day t (w + (i : ℤ)) tz &&
          decide (now_epoch ≤ t.end_epoch))).isEmpty = false →
        allSatisfied (initDeficits
          ((tasks.filter (fun t => is_task_active_on_day t (w + (i : ℤ)) tz &&
            decide (now_epoch ≤ t.end_epoch))).insertionSort taskLE)) = false →
        (schedule_week [] tasks store w now_epoch pto tz).unsatisfied ≠ [])) := by
  constructor
  · intro people store w now_epoch pto tz
    unfold schedule_week
    generalize (List.range 7).map (fun i : ℕ => w + (i : ℤ)) = days
    induction days with
    | nil => rfl
    | cons d rest ih => rw [List.foldl_cons, weekStep_no_tasks]; exact ih
  · intro tasks store w now_epoch pto tz
    constructor
    · unfold schedule_week
      generalize (List.range 7).map (fun i : ℕ => w + (i : ℤ)) = days
      suffices hgen : ∀ (l : List ℤ) (st : WeekState),
          (l.foldl (weekStep [] tasks now_epoch pto tz) st).assignments = st.assignments by
        exact hgen _ _
      intro l
      induction l with
      | nil => intro st; rfl
      | cons d rest ih =>
        intro st
        rw [List.foldl_cons, ih, weekStep_empty_people_assignments]
    · intro i hi hact hsat
      unfold schedule_week
      have hmem : w + (i : ℤ) ∈ (List.range 7).map (fun i : ℕ => w + (i : ℤ)) :=
        List.mem_map.mpr ⟨i, List.mem_range.mpr hi, rfl⟩
      suffices hgen : ∀ (l : List ℤ) (st : WeekState),
          (st.unsatisfied ≠ [] ∨ w + (i : ℤ) ∈ l) →
          (l.foldl (weekStep [] tasks now_epoch pto tz) st).unsatisfied ≠ [] by
        exact hgen _ _ (Or.inr hmem)
      intro l
      induction l with
      | nil =>
        intro st h
        rcases h with h | h
        · exact h
        · simp at h
      | cons d rest ih =>
        intro st h
        rw [List.foldl_cons]
        rcases h with h | h
        · refine ih _ (Or.inl ?_)
          rcases weekStep_unsat_extends [] tasks now_epoch pto tz st d with h2 | ⟨x, h2⟩
          · rw [h2]; exact h
          · rw [h2]; simp
        · rcases List.mem_cons.mp h with rfl | h
          · refine ih _ (Or.inl ?_)
            obtain ⟨x, hx⟩ := weekStep_empty_people_bad_day tasks now_epoch pto tz st _ hact hsat
            rw [hx]
            simp
          · exact ih _ (Or.inr h)

/-- Witness for C6 at concrete inputs: with one person and no tasks the week
is feasible with zero assignments; with one requiring task and no people,
day 0 of the week makes the schedule infeasible. -/
theorem claim_C6_witness :
    (schedule_week [soloPerson] [] [] 0 0 (fun _ => ∅) 0 =
      { store := [], assignments := [], unsatisfied := [] }) ∧
    (schedule_week [] [soloTask] [] 0 0 (fun _ => ∅) 0).unsatisfied ≠ [] :=
  ⟨claim_C6_amended.1 [soloPerson] [] 0 0 (fun _ => ∅) 0,
    (claim_C6_amended.2 [soloTask] [] 0 0 (fun _ => ∅) 0).2 0 (by norm_num)
      (by decide) (by decide)⟩

/-- Two sorted lists that are permutations of each other are equal, provided
the order relation is antisymmetric on the elements involved. -/
theorem sorted_unique {α : Type} {r : α → α → Prop} :
    ∀ {l₁ l₂ : List α}, l₁.Perm l₂ → l₁.Sorted r → l₂.Sorted r →
      (∀ a ∈ l₁, ∀ b ∈ l₁, r a b → r b a → a = b) → l₁ = l₂ := by
  intro l₁
  induction l₁ with
  | nil =>
    intro l₂ hp _ _ _
    exact List.Perm.nil_eq hp
  | cons a t ih =>
    intro l₂ hp hs₁ hs₂ hanti
    cases l₂ with
    | nil => exact absurd hp.symm (by simp)
    | cons b t₂ =>
      have hab : a = b := by
        by_cases h : a = b
        · exact h
        · have hbmem : b ∈ a :: t := hp.mem_iff.mpr (List.mem_cons_self b t₂)
          have hamem : a ∈ b :: t₂ := hp.mem_iff.mp (List.mem_cons_self a t)
          have hb_t : b ∈ t := by
            rcases List.mem_cons.mp hbmem with h2 | h2
            · exact absurd h2.symm h
            · exact h2
          have ha_t2 : a ∈ t₂ := by
            rcases List.mem_cons.mp hamem with h2 | h2
            · exact absurd h2 h
            · exact h2
          exact hanti a (List.mem_cons_self a t) b hbmem
            (List.rel_of_sorted_cons hs₁ b hb_t)
            (List.rel_of_sorted_cons hs₂ a ha_t2)
      subst hab
      rw [ih hp.cons_inv hs₁.of_cons hs₂.of_cons
        (fun x hx y hy => hanti x (List.mem_cons_of_mem _ hx) y (List.mem_cons_of_mem _ hy))]

/-- Sorting is insensitive to the order of the input list as long as the
order relation is antisymmetric on its elements. -/
theorem insertionSort_eq_of_perm {α : Type} (r : α → α → Prop) [DecidableRel r]
    [IsTotal α r] [IsTrans α r] {l₁ l₂ : List α} (hp : l₁.Perm l₂)
    (hanti : ∀ a ∈ l₁, ∀ b ∈ l₁, r a b → r b a → a = b) :
    l₁.insertionSort r = l₂.insertionSort r := by
  refine sorted_unique ?_ (List.sorted_insertionSort r l₁) (List.sorted_insertionSort r l₂) ?_
  · exact (List.perm_insertionSort r l₁).trans (hp.trans (List.perm_insertionSort r l₂).symm)
  · intro a ha b hb
    rw [(List.perm_insertionSort r l₁).mem_iff] at ha hb
    exact hanti a ha b hb

theorem personLE_antisymm_on {people : List Person}
    (hp : (people.map (fun p => (p.name, p.person_id))).Nodup) :
    ∀ a ∈ people, ∀ b ∈ people, personLE a b → personLE b a → a = b := by
  intro a ha b hb h1 h2
  refine List.inj_on_of_nodup_map hp ha hb ?_
  unfold personLE at h1 h2
  have : a.name = b.name ∧ a.person_id = b.person_id := by omega
  rw [Prod.mk.injEq]
  exact this

theorem taskLE_antisymm_on {tasks : List Task}
    (ht : (tasks.map (fun t => (t.name, t.task_id))).Nodup) :
    ∀ a ∈ tasks, ∀ b ∈ tasks, taskLE a b → taskLE b a → a = b := by
  intro a ha b hb h1 h2
  refine List.inj_on_of_nodup_map ht ha hb ?_
  unfold taskLE at h1 h2
  have : a.name = b.name ∧ a.task_id = b.task_id := by omega
  rw [Prod.mk.injEq]
  exact this

/-- Reversing the people and task lists does not change the result of one
day solve, because the solver's first act is a sort by a key that is unique
under the given hypotheses. -/
theorem solveDay_reverse (d : ℤ) (people : List Person) (tasks : List Task)
    (store : PlanStore) (pto : Finset ℕ)
    (hp : (people.map (fun p => (p.name, p.person_id))).Nodup)
    (ht : (tasks.map (fun t => (t.name, t.task_id))).Nodup) :
    solveDay d people.reverse tasks.reverse store pto = solveDay d people tasks store pto := by
  unfold solveDay
  rw [insertionSort_eq_of_perm personLE (List.reverse_perm people)
    (fun a ha b hb => personLE_antisymm_on hp a (List.mem_reverse.mp ha) b (List.mem_reverse.mp hb))]
  rw [insertionSort_eq_of_perm taskLE (List.reverse_perm tasks)
    (fun a ha b hb => taskLE_antisymm_on ht a (List.mem_reverse.mp ha) b (List.mem_reverse.mp hb))]

/-- C8: the solve is deterministic — it is a pure function of its inputs,
so two runs on identical inputs are definitionally identical — and
insensitive to input insertion order: reversing the people list and the
task list leaves the whole result (store, ordered assignment list and
unsatisfied-day report) unchanged, provided the `(name, id)` sort keys are
unique, which holds whenever identifiers are unique. -/
theorem claim_C8 (people : List Person) (tasks : List Task) (store : PlanStore)
    (w now_epoch : ℤ) (pto : PtoMap) (tz : ℤ)
    (hp : (people.map (fun p => (p.name, p.person_id))).Nodup)
    (ht : (tasks.map (fun t => (t.name, t.task_id))).Nodup) :
    schedule_week people.reverse tasks.reverse store w now_epoch pto tz =
      schedule_week people tasks store w now_epoch pto tz := by
  unfold schedule_week
  have hstep : weekStep people.reverse tasks.reverse now_epoch pto tz =
      weekStep people tasks now_epoch pto tz := by
    funext st d
    simp only [weekStep]
    rw [List.filter_reverse]
    have hie : ((tasks.filter (fun t => is_task_active_on_day t d tz &&
        decide (now_epoch ≤ t.end_epoch))).reverse).isEmpty =
        (tasks.filter (fun t => is_task_active_on_day t d tz &&
          decide (now_epoch ≤ t.end_epoch))).isEmpty := by
      rcases tasks.filter (fun t => is_task_active_on_day t d tz &&
        decide (now_epoch ≤ t.end_epoch)) with _ | ⟨x, l⟩
      · rfl
      · simp
    rw [hie]
    rw [solveDay_reverse d people _ st.store (pto d) hp
      (List.Nodup.sublist (List.Sublist.map _ (List.filter_sublist tasks)) ht)]
  rw [hstep]

/-- Witness for C8 at a concrete input: reversing the two-person people list
of the C1 scenario does not change the week schedule. -/
theorem claim_C8_witness :
    schedule_week (cexPeople.reverse) ([cexTask].reverse) [] 0 0 (fun _ => ∅) 0 =
      schedule_week cexPeople [cexTask] [] 0 0 (fun _ => ∅) 0 :=
  claim_C8 cexPeople [cexTask] [] 0 0 (fun _ => ∅) 0 (by decide) (by decide)

/-- C7 counterexample: on a future day (`allow_future = false`,
`current_ts < day_start_ts`) the horizon driver does return success with an
empty `DaySchedule`, but it does *not* append a bookkeeping bit to the
rolling histories: the history of person 1 stays `[0,0,0,0,0,1]` instead of
becoming `[0,0,0,0,1,0]`, which is what appending a zero bit (as the
no-active-tasks branch does) would produce. -/
theorem claim_C7_counterexample :
    (attemptDay hctx1 hstate1 100 200 5 50 false).2.1 = true ∧
    (attemptDay hctx1 hstate1 100 200 5 50 false).2.2.assignments = [] ∧
    (attemptDay hctx1 hstate1 100 200 5 50 false).1.histories 1 = initHistory 1 ∧
    (attemptDay hctx1 hstate1 100 200 5 50 false).1.histories 1 ≠
      dequeAppend (initHistory 1) 0 := by
  refine ⟨by decide, by decide, by decide, by decide⟩

/-- C7 amended: for a day strictly after `current_ts` with
`allow_future = false`, `_attempt_day` returns success with an empty
`DaySchedule` and leaves the scheduler state — in particular every person's
rolling six-day history — completely unchanged; unlike the
no-active-tasks branch, it does **not** append a zero bit. -/
theorem claim_C7_amended (ctx : HCtx) (st : HState)
    (day_start_ts day_end_ts dateD current_ts : ℤ) (h : current_ts < day_start_ts) :
    attemptDay ctx st day_start_ts day_end_ts dateD current_ts false =
      (st, true, { date := dateD, assignments := [] }) := by
  unfold attemptDay
  rw [if_pos (by simp [h])]

/-- Witness for C7 at a concrete input. -/
theorem claim_C7_witness :
    attemptDay hctx1 hstate1 100 200 5 50 false =
      (hstate1, true, { date := 5, assignments := [] }) :=
  claim_C7_amended hctx1 hstate1 100 200 5 50 (by norm_num)

theorem skillCount_decSkill_ne (l : List (ℕ × ℤ)) (s s' : ℕ) (h : s' ≠ s) :
    skillCount (decSkill l s) s' = skillCount l s' := by
  unfold skillCount decSkill
  rw [List.find?_map]
  have hpred : ((fun x : ℕ × ℤ => x.1 == s') ∘
      (fun e : ℕ × ℤ => if e.1 = s then (e.1, e.2 - 1) else e)) =
      (fun e : ℕ × ℤ => e.1 == s') := by
    funext e
    by_cases he : e.1 = s <;> simp [he]
  rw [hpred]
  rcases hf : l.find? (fun e => e.1 == s') with _ | e
  · rw [hf]
    rfl
  · rw [hf]
    have he : e.1 = s' := by simpa using List.find?_some hf
    simp [he, h]

theorem skillCount_decSkill_self (l : List (ℕ × ℤ)) (s : ℕ) (h : skillCount l s ≠ 0) :
    skillCount (decSkill l s) s = skillCount l s - 1 := by
  unfold skillCount decSkill
  rw [List.find?_map]
  have hpred : ((fun x : ℕ × ℤ => x.1 == s) ∘
      (fun e : ℕ × ℤ => if e.1 = s then (e.1, e.2 - 1) else e)) =
      (fun e : ℕ × ℤ => e.1 == s) := by
    funext e
    by_cases he : e.1 = s <;> simp [he]
  rw [hpred]
  rcases hf : l.find? (fun e => e.1 == s) with _ | e
  · exfalso
    apply h
    unfold skillCount
    rw [hf]
  · rw [hf]
    have he : e.1 = s := by simpa using List.find?_some hf
    simp [he]

/-- `_assign_person_to_task` leaves a skill count unchanged when the skill
is not a key of the requirement dict. -/
theorem applyAssignTask_not_key (reqs : List (ℕ × ℤ)) :
    ∀ (defl : List (ℕ × ℤ)) (skills : Finset ℕ) (s : ℕ), s ∉ reqs.map Prod.fst →
      skillCount (applyAssignTask reqs defl skills) s = skillCount defl s := by
  induction reqs with
  | nil => intro defl skills s _; rfl
  | cons e rest ih =>
    intro defl skills s hs
    rw [List.map_cons, List.mem_cons] at hs
    push_neg at hs
    have hstep : applyAssignTask (e :: rest) defl skills =
        applyAssignTask rest
          (if e.1 ∈ skills ∧ 0 < skillCount defl e.1 then decSkill defl e.1 else defl) skills := rfl
    rw [hstep, ih _ skills s hs.2]
    by_cases hc : e.1 ∈ skills ∧ 0 < skillCount defl e.1
    · rw [if_pos hc, skillCount_decSkill_ne defl e.1 s hs.1]
    · rw [if_neg hc]

/-- `_assign_person_to_task` leaves a skill count unchanged when the person
does not hold the skill. -/
theorem applyAssignTask_not_skill (reqs : List (ℕ × ℤ)) :
    ∀ (defl : List (ℕ × ℤ)) (skills : Finset ℕ) (s : ℕ), s ∉ skills →
      skillCount (applyAssignTask reqs defl skills) s = skillCount defl s := by
  induction reqs with
  | nil => intro defl skills s _; rfl
  | cons e rest ih =>
    intro defl skills s hs
    have hstep : applyAssignTask (e :: rest) defl skills =
        applyAssignTask rest
          (if e.1 ∈ skills ∧ 0 < skillCount defl e.1 then decSkill defl e.1 else defl) skills := rfl
    rw [hstep, ih _ skills s hs]
    by_cases hc : e.1 ∈ skills ∧ 0 < skillCount defl e.1
    · rw [if_pos hc]
      have hne : s ≠ e.1 := fun h => hs (h ▸ hc.1)
      rw [skillCount_decSkill_ne defl e.1 s hne]
    · rw [if_neg hc]

/-- One `_assign_person_to_task` call decrements any one skill count at most
once, when the requirement keys are distinct. -/
theorem applyAssignTask_drop_le_one (reqs : List (ℕ × ℤ)) :
    ∀ (defl : List (ℕ × ℤ)) (skills : Finset ℕ) (s : ℕ), (reqs.map Prod.fst).Nodup →
      skillCount defl s - skillCount (applyAssignTask reqs defl skills) s ≤ 1 := by
  induction reqs with
  | nil => intro defl skills s _; simp [applyAssignTask]
  | cons e rest ih =>
    intro defl skills s hnd
    rw [List.map_cons, List.nodup_cons] at hnd
    have hstep : applyAssignTask (e :: rest) defl skills =
        applyAssignTask rest
          (if e.1 ∈ skills ∧ 0 < skillCount defl e.1 then decSkill defl e.1 else defl) skills := rfl
    rw [hstep]
    by_cases hes : e.1 = s
    · subst hes
      have hnk : e.1 ∉ rest.map Prod.fst := hnd.1
      rw [applyAssignTask_not_key rest _ skills e.1 hnk]
      by_cases hc : e.1 ∈ skills ∧ 0 < skillCount defl e.1
      · rw [if_pos hc, skillCount_decSkill_self defl e.1 (by
          have := hc.2
          omega)]
        omega
      · rw [if_neg hc]
        omega
    · have heq : skillCount
          (if e.1 ∈ skills ∧ 0 < skillCount defl e.1 then decSkill defl e.1 else defl) s =
          skillCount defl s := by
        by_cases hc : e.1 ∈ skills ∧ 0 < skillCount defl e.1
        · rw [if_pos hc, skillCount_decSkill_ne defl e.1 s (fun h => hes h.symm)]
        · rw [if_neg hc]
      have := ih (if e.1 ∈ skills ∧ 0 < skillCount defl e.1 then decSkill defl e.1 else defl)
        skills s hnd.2
      omega

theorem defLookup_defUpdate {ds : Deficits} {tid tid' : ℕ} {f : List (ℕ × ℤ) → List (ℕ × ℤ)} :
    defLookup (defUpdate ds tid f) tid' =
      match ds.find? (fun x => x.1 == tid') with
      | some e => if e.1 = tid then f e.2 else e.2
      | none => [] := by
  unfold defLookup defUpdate
  rw [List.find?_map]
  have hpred : ((fun x : ℕ × List (ℕ × ℤ) => x.1 == tid') ∘
      (fun e : ℕ × List (ℕ × ℤ) => if e.1 = tid then (e.1, f e.2) else e)) =
      (fun e : ℕ × List (ℕ × ℤ) => e.1 == tid') := by
    funext e
    by_cases he : e.1 = tid <;> simp [he]
  rw [hpred]
  rcases hf : ds.find? (fun e => e.1 == tid') with _ | e
  · rw [hf]
    rfl
  · rw [hf]
    by_cases he : e.1 = tid <;> simp [he]

theorem defLookup_defUpdate_ne {ds : Deficits} {tid tid' : ℕ}
    {f : List (ℕ × ℤ) → List (ℕ × ℤ)} (h : tid' ≠ tid) :
    defLookup (defUpdate ds tid f) tid' = defLookup ds tid' := by
  rw [defLookup_defUpdate]
  unfold defLookup
  rcases hf : ds.find? (fun e => e.1 == tid') with _ | e
  · rw [hf]
  · rw [hf]
    have he : e.1 = tid' := by simpa using List.find?_some hf
    show (if e.1 = tid then f e.2 else e.2) = e.2
    rw [if_neg (by rw [he]; exact h)]

theorem find?_eq_of_nodup_map {α : Type} {f : α → ℕ} {l : List α}
    (hnd : (l.map f).Nodup) {x : α} (hx : x ∈ l) :
    l.find? (fun y => f y == f x) = some x := by
  induction l with
  | nil => simp at hx
  | cons a rest ih =>
    by_cases ha : f a = f x
    · have heq : a = x := List.inj_on_of_nodup_map hnd (List.mem_cons_self _ _) hx ha
      rw [List.find?_cons_of_pos _ (by simp [ha])]
      rw [heq]
    · have hx2 : x ∈ rest := by
        rcases List.mem_cons.mp hx with rfl | h
        · exact absurd rfl ha
        · exact h
      rw [List.find?_cons_of_neg _ (by simp [ha])]
      exact ih (by
        rw [List.map_cons] at hnd
        exact (List.nodup_cons.mp hnd).2) hx2

theorem personById_eq {people : List Person}
    (hnd : (people.map (fun p => p.person_id)).Nodup) {p : Person} (hp : p ∈ people) :
    personById people p.person_id = p := by
  unfold personById
  have hnd2 : (people.reverse.map (fun p => p.person_id)).Nodup := by
    rw [List.map_reverse, List.nodup_reverse]
    exact hnd
  rw [find?_eq_of_nodup_map hnd2 (List.mem_reverse.mpr hp)]
  rfl

theorem taskById_eq {tasks : List Task}
    (hnd : (tasks.map (fun t => t.task_id)).Nodup) {t : Task} (ht : t ∈ tasks) :
    taskById tasks t.task_id = t := by
  unfold taskById
  have hnd2 : (tasks.reverse.map (fun t => t.task_id)).Nodup := by
    rw [List.map_reverse, List.nodup_reverse]
    exact hnd
  rw [find?_eq_of_nodup_map hnd2 (List.mem_reverse.mpr ht)]
  rfl

theorem taskById_mem_or_default (tasks : List Task) (tid : ℕ) :
    taskById tasks tid ∈ tasks ∨ taskById tasks tid = default := by
  unfold taskById
  rcases hf : tasks.reverse.find? (fun t => t.task_id == tid) with _ | t
  · exact Or.inr (by rw [hf]; rfl)
  · exact Or.inl (by
      rw [hf]
      exact List.mem_reverse.mp (List.mem_of_find?_eq_some hf))

theorem needStep_some_origin {t : Task} {best : Option (ℕ × ℕ × ℕ × ℤ)} {e : ℕ × ℤ}
    {b : ℕ × ℕ × ℕ × ℤ} (h : needStep t best e = some b) :
    best = some b ∨ b.1 = t.task_id := by
  rcases best with _ | bb
  · have h2 : (if 0 < e.2 then some (t.task_id, e.1, t.name, e.2)
        else (none : Option (ℕ × ℕ × ℕ × ℤ))) = some b := h
    by_cases hpos : 0 < e.2
    · rw [if_pos hpos] at h2
      right
      cases h2
      rfl
    · rw [if_neg hpos] at h2
      exact absurd h2 (by simp)
  · have h2 : (if 0 < e.2 then
        (if bb.2.2.2 < e.2 ∨ (e.2 = bb.2.2.2 ∧
            (t.name < bb.2.2.1 ∨ (t.name = bb.2.2.1 ∧ e.1 < bb.2.1))) then
          some (t.task_id, e.1, t.name, e.2) else some bb)
        else some bb) = some b := h
    by_cases hpos : 0 < e.2
    · rw [if_pos hpos] at h2
      by_cases hrep : bb.2.2.2 < e.2 ∨ (e.2 = bb.2.2.2 ∧
          (t.name < bb.2.2.1 ∨ (t.name = bb.2.2.1 ∧ e.1 < bb.2.1)))
      · rw [if_pos hrep] at h2
        right
        cases h2
        rfl
      · rw [if_neg hrep] at h2
        exact Or.inl h2
    · rw [if_neg hpos] at h2
      exact Or.inl h2

theorem foldl_needStep_origin {t : Task} {l : List (ℕ × ℤ)} :
    ∀ {best : Option (ℕ × ℕ × ℕ × ℤ)} {b : ℕ × ℕ × ℕ × ℤ},
      l.foldl (needStep t) best = some b → best = some b ∨ b.1 = t.task_id := by
  induction l with
  | nil => intro best b h; exact Or.inl h
  | cons e rest ih =>
    intro best b h
    rw [List.foldl_cons] at h
    rcases ih h with h2 | h2
    · exact needStep_some_origin h2
    · exact Or.inr h2

theorem selectNextNeed_some_exists {tasks : List Task} {ds : Deficits} {tid skill : ℕ}
    (h : selectNextNeed tasks ds = some (tid, skill)) : ∃ t ∈ tasks, t.task_id = tid := by
  unfold selectNextNeed at h
  rw [Option.map_eq_some'] at h
  obtain ⟨b, hb, hbe⟩ := h
  have hgen : ∀ (l : List Task) (best : Option (ℕ × ℕ × ℕ × ℤ)),
      l.foldl (fun bb t => (defLookup ds t.task_id).foldl (needStep t) bb) best = some b →
      best = some b ∨ ∃ t ∈ l, t.task_id = b.1 := by
    intro l
    induction l with
    | nil => intro best h2; exact Or.inl h2
    | cons t0 rest ih =>
      intro best h2
      rw [List.foldl_cons] at h2
      rcases ih _ h2 with h3 | ⟨t2, ht2, he2⟩
      · rcases foldl_needStep_origin h3 with h4 | h4
        · exact Or.inl h4
        · exact Or.inr ⟨t0, List.mem_cons_self _ _, h4.symm⟩
      · exact Or.inr ⟨t2, List.mem_cons_of_mem _ ht2, he2⟩
  rcases hgen tasks none hb with h2 | ⟨t, ht, he⟩
  · exact absurd h2 (by simp)
  · exact ⟨t, ht, he.trans (congrArg Prod.fst hbe)⟩

theorem skillCount_nonpos_of_forall {L : List (ℕ × ℤ)} (h : ∀ e ∈ L, e.2 ≤ 0) (s : ℕ) :
    skillCount L s ≤ 0 := by
  unfold skillCount
  rcases hf : L.find? (fun e => e.1 == s) with _ | e
  · rw [hf]
  · rw [hf]
    exact h e (List.mem_of_find?_eq_some hf)

theorem allSatisfied_defLookup {ds : Deficits} (h : allSatisfied ds = true) (tid : ℕ) :
    ∀ e ∈ defLookup ds tid, e.2 ≤ 0 := by
  intro e he
  unfold defLookup at he
  rcases hf : ds.find? (fun e => e.1 == tid) with _ | en
  · rw [hf] at he
    simp at he
  · rw [hf] at he
    have hmem := List.mem_of_find?_eq_some hf
    unfold allSatisfied at h
    rw [List.all_eq_true] at h
    have h2 := h en hmem
    rw [List.all_eq_true] at h2
    simpa using h2 e he

theorem foldl_dictInsert_eq_append {f : Task → List (ℕ × ℤ)} :
    ∀ (l : List Task) (acc : Deficits),
      ((acc.map Prod.fst ++ l.map (fun t => t.task_id)).Nodup) →
      l.foldl (fun ds t => dictInsert ds t.task_id (f t)) acc =
        acc ++ l.map (fun t => (t.task_id, f t)) := by
  intro l
  induction l with
  | nil => intro acc _; simp
  | cons t rest ih =>
    intro acc hnd
    rw [List.foldl_cons]
    have hnotin : t.task_id ∉ acc.map Prod.fst := by
      rw [List.map_cons] at hnd
      rw [List.nodup_append] at hnd
      intro hmem
      exact hnd.2.2 hmem (List.mem_cons_self _ _)
    have hins : dictInsert acc t.task_id (f t) = acc ++ [(t.task_id, f t)] := by
      unfold dictInsert
      rw [if_neg (by
        intro hany
        obtain ⟨en, hen, he⟩ := List.any_eq_true.mp hany
        refine hnotin (List.mem_map.mpr ⟨en, hen, ?_⟩)
        simpa using he)]
    rw [hins]
    rw [ih (acc ++ [(t.task_id, f t)]) (by
      rw [List.map_append]
      rw [List.map_cons] at hnd
      have : acc.map Prod.fst ++ t.task_id :: rest.map (fun t => t.task_id) =
          (acc.map Prod.fst ++ [(t.task_id, f t)].map Prod.fst) ++
            rest.map (fun t => t.task_id) := by
        simp
      rw [this] at hnd
      exact hnd)]
    simp

theorem initDeficits_eq {tasks : List Task} (htN : (tasks.map (fun t => t.task_id)).Nodup) :
    initDeficits tasks =
      tasks.map (fun t => (t.task_id, t.daily_requirements.filter (fun e => 0 < e.2))) := by
  unfold initDeficits
  rw [foldl_dictInsert_eq_append tasks [] (by simpa using htN)]
  rfl

theorem defLookup_initDeficits {tasks : List Task}
    (htN : (tasks.map (fun t => t.task_id)).Nodup) {t : Task} (ht : t ∈ tasks) :
    defLookup (initDeficits tasks) t.task_id =
      t.daily_requirements.filter (fun e => 0 < e.2) := by
  rw [initDeficits_eq htN]
  unfold defLookup
  have hkeys : ((tasks.map (fun t => (t.task_id,
      t.daily_requirements.filter (fun e => 0 < e.2)))).map Prod.fst).Nodup := by
    rw [List.map_map]
    simpa using htN
  have hmem : (t.task_id, t.daily_requirements.filter (fun e => 0 < e.2)) ∈
      tasks.map (fun t => (t.task_id, t.daily_requirements.filter (fun e => 0 < e.2))) :=
    List.mem_map.mpr ⟨t, ht, rfl⟩
  rw [find_key_nodup hkeys hmem]

theorem skillCount_filter_pos {reqs : List (ℕ × ℤ)} (hnd : (reqs.map Prod.fst).Nodup)
    {e : ℕ × ℤ} (he : e ∈ reqs) (hpos : 0 < e.2) :
    skillCount (reqs.filter (fun x => 0 < x.2)) e.1 = e.2 := by
  have hmem : e ∈ reqs.filter (fun x => 0 < x.2) :=
    List.mem_filter.mpr ⟨he, by simpa using hpos⟩
  have hkeys : ((reqs.filter (fun x => 0 < x.2)).map Prod.fst).Nodup :=
    List.Nodup.sublist (List.Sublist.map _ (List.filter_sublist reqs)) hnd
  unfold skillCount
  rw [find_key_nodup hkeys hmem]

theorem defLookup_found {ds : Deficits} {tid : ℕ} {en : ℕ × List (ℕ × ℤ)}
    (hf : ds.find? (fun x => x.1 == tid) = some en) : defLookup ds tid = en.2 := by
  unfold defLookup
  rw [hf]

theorem defLookup_none {ds : Deficits} {tid : ℕ}
    (hf : ds.find? (fun x => x.1 == tid) = none) : defLookup ds tid = [] := by
  unfold defLookup
  rw [hf]

theorem defLookup_defUpdate_found {ds : Deficits} {tid : ℕ} {f : List (ℕ × ℤ) → List (ℕ × ℤ)}
    {en : ℕ × List (ℕ × ℤ)} (hf : ds.find? (fun x => x.1 == tid) = some en) :
    defLookup (defUpdate ds tid f) tid = f en.2 := by
  rw [defLookup_defUpdate, hf]
  show (if en.1 = tid then f en.2 else en.2) = f en.2
  rw [if_pos (by simpa using List.find?_some hf)]

theorem defLookup_defUpdate_none {ds : Deficits} {tid : ℕ} {f : List (ℕ × ℤ) → List (ℕ × ℤ)}
    (hf : ds.find? (fun x => x.1 == tid) = none) :
    defLookup (defUpdate ds tid f) tid = [] := by
  rw [defLookup_defUpdate, hf]

/-- The counting invariant of `backtrack`: for every task `T` and skill `s`,
the amount by which the deficit has been driven down is at most the number
of assigned persons who hold `s` and are assigned to `T`; at the leaves the
remaining deficit is nonpositive, so the initial requirement is covered. -/
theorem backtrack_count (ctx : DayCtx) (ds0 : Deficits)
    (hpN : (ctx.people.map (fun p => p.person_id)).Nodup)
    (hrq : ∀ t ∈ ctx.tasks, (t.daily_requirements.map Prod.fst).Nodup) :
    ∀ (fuel : ℕ) (ds : Deficits) (assigned res : List (ℕ × ℕ)),
      backtrack ctx fuel ds assigned = some res →
      ∀ (T : Task), T ∈ ctx.tasks → ∀ (s : ℕ),
        skillCount (defLookup ds0 T.task_id) s - skillCount (defLookup ds T.task_id) s ≤
          (assigned.countP (fun en => en.2 == T.task_id &&
            decide (s ∈ (personById ctx.people en.1).skills)) : ℤ) →
        skillCount (defLookup ds0 T.task_id) s ≤
          (res.countP (fun en => en.2 == T.task_id &&
            decide (s ∈ (personById ctx.people en.1).skills)) : ℤ) := by
  intro fuel
  induction fuel with
  | zero => intro ds assigned res h; simp [backtrack] at h
  | succ fuel ih =>
    intro ds assigned res h T hT s hinv
    rw [backtrack] at h
    split at h
    · rename_i hall
      obtain rfl : assigned = res := by simpa using h
      have hnp := skillCount_nonpos_of_forall (allSatisfied_defLookup hall T.task_id) s
      omega
    · split at h
      · rename_i hsel
        obtain rfl : assigned = res := by simpa using h
        have hnp := skillCount_nonpos_of_forall (selectNextNeed_eq_none hsel T hT) s
        omega
      · rename_i need tid skill hsel
        obtain ⟨p, hp, hfp⟩ := firstSome_eq_some h
        split at hfp
        · rename_i hcan
          have hpmem := (mem_candidatesFor hp).1
          have hpid : personById ctx.people p.person_id = p := personById_eq hpN hpmem
          refine ih _ _ _ hfp T hT s ?_
          rw [List.countP_append, List.countP_cons]
          simp only [List.countP_nil]
          have hreqnd : ((taskById ctx.tasks tid).daily_requirements.map Prod.fst).Nodup := by
            rcases taskById_mem_or_default ctx.tasks tid with hm | hd
            · exact hrq _ hm
            · rw [hd]
              have hde : (default : Task).daily_requirements = [] := rfl
              rw [hde]
              simp
          by_cases hTt : T.task_id = (taskById ctx.tasks tid).task_id
          · rcases hf : ds.find? (fun x => x.1 == (taskById ctx.tasks tid).task_id) with _ | en
            · have hnew : defLookup (defUpdate ds (taskById ctx.tasks tid).task_id
                  (fun dl => applyAssignTask (taskById ctx.tasks tid).daily_requirements dl
                    p.skills)) T.task_id = [] := by
                rw [hTt]
                exact defLookup_defUpdate_none hf
              have hold : defLookup ds T.task_id = [] := by
                rw [hTt]
                exact defLookup_none hf
              rw [hnew]
              rw [hold] at hinv
              have h0 : skillCount ([] : List (ℕ × ℤ)) s = 0 := rfl
              by_cases hb : ((p.person_id, (taskById ctx.tasks tid).task_id).2 == T.task_id &&
                  decide (s ∈ (personById ctx.people
                    (p.person_id, (taskById ctx.tasks tid).task_id).1).skills)) = true
              · rw [if_pos hb]
                push_cast
                omega
              · rw [if_neg (by simpa using hb)]
                push_cast
                omega
            · have hen1 : en.1 = (taskById ctx.tasks tid).task_id := by
                simpa using List.find?_some hf
              have hold : defLookup ds T.task_id = en.2 := by
                rw [hTt]
                exact defLookup_found hf
              have hnew : defLookup (defUpdate ds (taskById ctx.tasks tid).task_id
                  (fun dl => applyAssignTask (taskById ctx.tasks tid).daily_requirements dl
                    p.skills)) T.task_id =
                  applyAssignTask (taskById ctx.tasks tid).daily_requirements en.2 p.skills := by
                rw [hTt]
                exact defLookup_defUpdate_found hf
              rw [hnew]
              rw [hold] at hinv
              by_cases hsk : s ∈ p.skills
              · have hdrop := applyAssignTask_drop_le_one
                  (taskById ctx.tasks tid).daily_requirements en.2 p.skills s hreqnd
                have hb : ((p.person_id, (taskById ctx.tasks tid).task_id).2 == T.task_id &&
                    decide (s ∈ (personById ctx.people
                      (p.person_id, (taskById ctx.tasks tid).task_id).1).skills)) = true := by
                  simp [hpid, hsk, hTt.symm]
                rw [if_pos hb]
                push_cast
                omega
              · have heq := applyAssignTask_not_skill
                  (taskById ctx.tasks tid).daily_requirements en.2 p.skills s hsk
                rw [heq]
                by_cases hb : ((p.person_id, (taskById ctx.tasks tid).task_id).2 == T.task_id &&
                    decide (s ∈ (personById ctx.people
                      (p.person_id, (taskById ctx.tasks tid).task_id).1).skills)) = true
                · rw [if_pos hb]
                  push_cast
                  omega
                · rw [if_neg (by simpa using hb)]
                  push_cast
                  omega
          · have hnew : defLookup (defUpdate ds (taskById ctx.tasks tid).task_id
                (fun dl => applyAssignTask (taskById ctx.tasks tid).daily_requirements dl
                  p.skills)) T.task_id = defLookup ds T.task_id :=
              defLookup_defUpdate_ne hTt
            rw [hnew]
            by_cases hb : ((p.person_id, (taskById ctx.tasks tid).task_id).2 == T.task_id &&
                decide (s ∈ (personById ctx.people
                  (p.person_id, (taskById ctx.tasks tid).task_id).1).skills)) = true
            · rw [if_pos hb]
              push_cast
              omega
            · rw [if_neg (by simpa using hb)]
              push_cast
              omega
        · exact absurd hfp (by simp)

/-- C1 counterexample: with two people who each hold skills 1 and 2 and one
task requiring `{1: 1, 2: 2}`, the solver succeeds and assigns both people;
each output assignment lists `skills_contributed = [1, 2]` because the code
records every required skill the person possesses, not the ones actually
counted against the deficit.  Hence two assigned persons contribute skill 1
while its required headcount is 1 — "never more" fails. -/
theorem claim_C1_counterexample :
    (solveDay 0 cexPeople [cexTask] [] ∅).1 = true ∧
    skillCount cexTask.daily_requirements 1 = 1 ∧
    ((solveDay 0 cexPeople [cexTask] [] ∅).2.1.countP
      (fun a => a.task_id == cexTask.task_id && decide ((1 : ℕ) ∈ a.skills_contributed))) = 2 := by
  refine ⟨by decide, by decide, by decide⟩

/-- C1 amended: in every successful `DaySolver.solve` run (with unique
person ids, task ids and requirement keys, as the data model specifies),
for every task `T` and required skill of positive headcount, the number of
assigned persons whose `skills_contributed` for `T` includes the skill is
**at least** the required headcount — never less; it can exceed it (see the
counterexample), because `skills_contributed` lists every required skill
the person happens to possess. -/
theorem claim_C1_amended (d : ℤ) (people : List Person) (tasks : List Task)
    (store : PlanStore) (pto : Finset ℕ)
    (hpN : (people.map (fun p => p.person_id)).Nodup)
    (htN : (tasks.map (fun t => t.task_id)).Nodup)
    (hrq : ∀ t ∈ tasks, (t.daily_requirements.map Prod.fst).Nodup)
    (hok : (solveDay d people tasks store pto).1 = true)
    (T : Task) (hT : T ∈ tasks) (e : ℕ × ℤ) (he : e ∈ T.daily_requirements)
    (hpos : 0 < e.2) :
    e.2 ≤ ((solveDay d people tasks store pto).2.1.countP
      (fun a => a.task_id == T.task_id && decide (e.1 ∈ a.skills_contributed)) : ℤ) := by
  have hpN2 : ((people.insertionSort personLE).map (fun p => p.person_id)).Nodup :=
    ((List.perm_insertionSort personLE people).map _).nodup_iff.mpr hpN
  have htN2 : ((tasks.insertionSort taskLE).map (fun t => t.task_id)).Nodup :=
    ((List.perm_insertionSort taskLE tasks).map _).nodup_iff.mpr htN
  have hT2 : T ∈ tasks.insertionSort taskLE :=
    (List.perm_insertionSort taskLE tasks).mem_iff.mpr hT
  have hrq2 : ∀ t ∈ tasks.insertionSort taskLE, (t.daily_requirements.map Prod.fst).Nodup :=
    fun t ht2 => hrq t ((List.perm_insertionSort taskLE tasks).mem_iff.mp ht2)
  have hsc : skillCount (defLookup (initDeficits (tasks.insertionSort taskLE)) T.task_id) e.1
      = e.2 := by
    rw [defLookup_initDeficits htN2 hT2]
    exact skillCount_filter_pos (hrq T hT) he hpos
  simp only [solveDay] at hok ⊢
  by_cases hall : allSatisfied (initDeficits (tasks.insertionSort taskLE)) = true
  · exfalso
    have hnp := skillCount_nonpos_of_forall (allSatisfied_defLookup hall T.task_id) e.1
    omega
  · rw [if_neg hall] at hok ⊢
    rcases hbt : backtrack
        ⟨d, people.insertionSort personLE, tasks.insertionSort taskLE, store, pto⟩
        (totalDeficit (initDeficits (tasks.insertionSort taskLE)) + 1)
        (initDeficits (tasks.insertionSort taskLE)) [] with _ | res
    · rw [hbt] at hok
      exact absurd hok (by simp)
    · have hcount := backtrack_count
        ⟨d, people.insertionSort personLE, tasks.insertionSort taskLE, store, pto⟩
        (initDeficits (tasks.insertionSort taskLE)) hpN2 hrq2
        (totalDeficit (initDeficits (tasks.insertionSort taskLE)) + 1)
        (initDeficits (tasks.insertionSort taskLE)) [] res hbt T hT2 e.1 (by simp)
      rw [hsc] at hcount
      have hpt : ∀ en ∈ res.insertionSort (outLE (people.insertionSort personLE)),
          ((fun a => a.task_id == T.task_id && decide (e.1 ∈ a.skills_contributed)) ∘
            mkAssignment ⟨d, people.insertionSort personLE, tasks.insertionSort taskLE,
              store, pto⟩) en =
          (fun en => en.2 == T.task_id &&
            decide (e.1 ∈ (personById (people.insertionSort personLE) en.1).skills)) en := by
        intro en hen
        simp only [Function.comp_apply]
        by_cases hb : en.2 = T.task_id
        · have hmemiff : e.1 ∈ (mkAssignment ⟨d, people.insertionSort personLE,
              tasks.insertionSort taskLE, store, pto⟩ en).skills_contributed ↔
              e.1 ∈ (personById (people.insertionSort personLE) en.1).skills := by
            have hsk : (mkAssignment ⟨d, people.insertionSort personLE,
                tasks.insertionSort taskLE, store, pto⟩ en).skills_contributed =
                (((taskById (tasks.insertionSort taskLE) en.2).daily_requirements.map
                  (fun r => r.1)).filter
                    (fun s => decide (s ∈ (personById (people.insertionSort personLE)
                      en.1).skills))).insertionSort (· ≤ ·) := rfl
            rw [hsk, hb, taskById_eq htN2 hT2]
            rw [(List.perm_insertionSort _ _).mem_iff, List.mem_filter]
            constructor
            · rintro ⟨-, h2⟩
              simpa using h2
            · intro h2
              exact ⟨List.mem_map.mpr ⟨e, he, rfl⟩, by simpa using h2⟩
          have hta : (mkAssignment ⟨d, people.insertionSort personLE,
              tasks.insertionSort taskLE, store, pto⟩ en).task_id = en.2 := rfl
          rw [hta]
          simp only [hmemiff]
        · have hta : (mkAssignment ⟨d, people.insertionSort personLE,
              tasks.insertionSort taskLE, store, pto⟩ en).task_id = en.2 := rfl
          rw [hta]
          have hfalse : (en.2 == T.task_id) = false := by simp [hb]
          rw [hfalse]
          simp
      rw [← (List.perm_insertionSort (outLE (people.insertionSort personLE)) res).countP_congr
        hpt] at hcount
      rw [← List.countP_map] at hcount
      exact hcount

/-- Witness for C1 (amended) at a concrete input: the single-person,
single-skill scenario assigns one person, meeting the headcount of one. -/
theorem claim_C1_witness :
    ((1 : ℕ), (1 : ℤ)).2 ≤ ((solveDay 0 [soloPerson] [soloTask] [] ∅).2.1.countP
      (fun a => a.task_id == soloTask.task_id &&
        decide (((1 : ℕ), (1 : ℤ)).1 ∈ a.skills_contributed)) : ℤ) :=
  claim_C1_amended 0 [soloPerson] [soloTask] [] ∅ (by decide) (by decide)
    (by decide) (by decide) soloTask (by decide) ((1 : ℕ), (1 : ℤ)) (by decide) (by decide)

end TimeAway
